import Mathlib

/-!
# A shallow embedding of `src/common/collections/binary_map.rs`

This file embeds the `ArrowBytesMap<O, V>` structure of the repository —
a deduplicating map keyed by optional byte strings, used for
`COUNT DISTINCT` and `GROUP BY` over Arrow string/binary arrays — and
proves the specification claims about it.

Modelling conventions:

* A byte is `Fin 256`; a non-null array element is a `List (Fin 256)`.
* The generic offset parameter `O` (`i32`/`i64`) is modelled by
  `OffsetWidth` together with the bound `OffsetWidth.maxRepr`
  (`i32::MAX` / `i64::MAX`, the exact criterion of `O::from_usize`).
  Offsets and lengths are stored as untruncated `Nat`; the cast
  `O::usize_as` wraps only when the value exceeds `2 ^ 31` (resp. `2 ^ 63`),
  and in every such run the batch's final overflow check fails as well
  (the buffer only grows), so the run aborts in both the code and the
  model and no wrapped value is ever observable in a completed batch.
* The `ahash::RandomState` hash of a batch element
  (`datafusion::common::hash_utils::create_hashes`) is a pure function of
  the element for a fixed map instance; it is modelled by an arbitrary
  parameter `h : Option Bytes → Nat`.  Nothing is assumed about `h`
  (collisions are allowed), mirroring that the code's correctness rests on
  the equality closure, not on hash injectivity.
* `hashbrown::raw::RawTable` (an external dependency): `get`/`get_mut`
  probe the candidates whose stored hash matches and apply the caller's
  equality closure.  It is modelled as a list of entries in insertion
  order searched with `List.find?` over (hash match && equality closure).
  The real table may additionally present candidates whose 7-bit control
  hash collides, but the equality closure compares length and bytes and
  therefore never accepts a different key, so the two models agree.
* `RawTableAllocExt::insert_accounted` (external dependency) is modelled
  from the spec: it appends the entry and accounts memory incrementally;
  the per-insertion accounting increment is an arbitrary parameter `esz`.
* Rust panics (`assert!`, failed `as_bytes` downcast, the offset overflow
  check) are modelled as `Except.error`; a panicking batch produces no
  observable state.
* The `Utf8View`/`BinaryView` output types are out of scope (the spec
  excludes the view-typed variant), so `OutputType` has the two variants
  this map supports.
-/

set_option maxRecDepth 4096

namespace BinaryMap

/-- A single byte. -/
abbrev Byte := Fin 256

/-- The byte string of one non-null array element. -/
abbrev Bytes := List Byte

/-- `datafusion::physical_expr::binary_map::OutputType`, restricted to the
two variants supported by `ArrowBytesMap` (view types are out of scope). -/
inductive OutputType where
  | Utf8 : OutputType
  | Binary : OutputType
deriving DecidableEq, Repr

/-- The Arrow `DataType`s relevant to the byte-array kinds handled here. -/
inductive DataType where
  | Utf8 : DataType
  | LargeUtf8 : DataType
  | Binary : DataType
  | LargeBinary : DataType
deriving DecidableEq, Repr

/-- The offset type parameter `O`: `i32` for `String`/`Binary`,
`i64` for the `Large` variants. -/
inductive OffsetWidth where
  | w32 : OffsetWidth
  | w64 : OffsetWidth
deriving DecidableEq, Repr

/-- The largest buffer length representable by the offset type:
`O::from_usize(n)` is `Some` exactly when `n ≤ maxRepr`. -/
def OffsetWidth.maxRepr : OffsetWidth → Nat
  | .w32 => 2 ^ 31 - 1
  | .w64 => 2 ^ 63 - 1

/-- The concrete Arrow data type corresponding to `GenericStringType<O>` /
`GenericBinaryType<O>`; `values.as_bytes::<B>()` succeeds exactly when the
input array's data type equals this. -/
def exactDataType : OutputType → OffsetWidth → DataType
  | .Utf8, .w32 => .Utf8
  | .Utf8, .w64 => .LargeUtf8
  | .Binary, .w32 => .Binary
  | .Binary, .w64 => .LargeBinary

/-- The `assert!(matches!(values.data_type(), ...))` kind check performed at
the top of `insert_if_new`, `insert_or_update` and `get_payloads`. -/
def kindOk : OutputType → DataType → Bool
  | .Utf8, .Utf8 => true
  | .Utf8, .LargeUtf8 => true
  | .Binary, .Binary => true
  | .Binary, .LargeBinary => true
  | _, _ => false

/-- `const SHORT_VALUE_LEN: usize = mem::size_of::<usize>()` on the 64-bit
target: the maximum length of a value inlined into the hash-table entry. -/
def SHORT_VALUE_LEN : Nat := 8

/-- `value.iter().fold(0usize, |acc, &x| acc << 8 | x as usize)`: the
big-endian packing of a short value into a machine word.  `usize`
arithmetic wraps at `2 ^ 64`, hence the explicit reduction. -/
def inlineOf (value : Bytes) : Nat :=
  value.foldl (fun acc x => ((acc <<< 8) % 2 ^ 64) ||| x.val) 0

/-- `struct Entry<O, V>`: one record per distinct non-null key in the hash
table. -/
structure Entry (V : Type) where
  hash : Nat
  offset_or_inline : Nat
  len : Nat
  payload : V
deriving DecidableEq, Repr

/-- `Entry::range`: `self.offset_or_inline..self.offset_or_inline + self.len`
(only meaningful for non-inlined entries). -/
def Entry.rangeEnd (e : Entry V) : Nat := e.offset_or_inline + e.len

/-- `struct ArrowBytesMap<O, V>`.  `random_state` is the hash parameter `h`
threaded through the operations; `map` lists the hash-table entries in
insertion order. -/
structure ArrowBytesMap (V : Type) where
  output_type : OutputType
  map : List (Entry V)
  map_size : Nat
  buffer : Bytes
  offsets : List Nat
  hashes_buffer : List Nat
  null : Option (V × Nat)
deriving DecidableEq, Repr

/-- `ArrowBytesMap::new(output_type)`. -/
def ArrowBytesMap.new (V : Type) (output_type : OutputType) : ArrowBytesMap V :=
  { output_type := output_type
    map := []
    map_size := 0
    buffer := []
    offsets := [0]
    hashes_buffer := []
    null := none }

/-- `ArrowBytesMap::take`: returns `(contents handed back, replacement left
in place)` — the code builds `Self::new(self.output_type)` and swaps. -/
def ArrowBytesMap.take (m : ArrowBytesMap V) : ArrowBytesMap V × ArrowBytesMap V :=
  (m, ArrowBytesMap.new V m.output_type)

/-- `ArrowBytesMap::len`: `non_null_len() + null.map(|_| 1).unwrap_or(0)`. -/
def ArrowBytesMap.len (m : ArrowBytesMap V) : Nat :=
  m.map.length + (if m.null.isSome then 1 else 0)

/-- `ArrowBytesMap::non_null_len`: the hash table's entry count. -/
def ArrowBytesMap.non_null_len (m : ArrowBytesMap V) : Nat :=
  m.map.length

/-- `ArrowBytesMap::is_empty`. -/
def ArrowBytesMap.is_empty (m : ArrowBytesMap V) : Bool :=
  m.map.isEmpty && m.null.isNone

/-- `buffer.as_slice()[off..off + len]` — Rust's `get_unchecked` read,
rendered total; claim C7 shows the range is always in bounds, where the
two coincide. -/
def sliceAt (buf : Bytes) (off len : Nat) : Bytes :=
  (buf.drop off).take len

/-- The equality closure passed to `RawTable::get`/`get_mut`, as dispatched
on the probe value's length (the code installs the inline-comparing closure
when `value.len() <= SHORT_VALUE_LEN` and the buffer-comparing closure
otherwise; both first reject on length mismatch, and equal lengths fall on
the same side of the threshold, so the dispatch below is equivalent). -/
def entryMatches (buffer : Bytes) (value : Bytes) (header : Entry V) : Bool :=
  if header.len ≠ value.length then false
  else if value.length ≤ SHORT_VALUE_LEN then
    inlineOf value == header.offset_or_inline
  else
    value == sliceAt buffer header.offset_or_inline header.len

/-- The full probe predicate used against the hash table: stored hash
matches the batch hash, then the equality closure. -/
def probeOf (h : Option Bytes → Nat) (buffer : Bytes) (value : Bytes) (header : Entry V) : Bool :=
  header.hash == h (some value) && entryMatches buffer value header

/-- `self.map.get(hash, eq)`: probe by stored hash, then the equality
closure. -/
def mapGet (h : Option Bytes → Nat) (m : ArrowBytesMap V) (value : Bytes) : Option (Entry V) :=
  m.map.find? (probeOf h m.buffer value)

/-- In-place payload mutation of the entry returned by `get_mut`: update the
first entry accepted by the probe predicate. -/
def updateFirst (p : Entry V → Bool) (f : V → V) : List (Entry V) → List (Entry V)
  | [] => []
  | e :: rest => if p e then { e with payload := f e.payload } :: rest else e :: updateFirst p f rest

/-- Modelled from the spec: `RawTable::insert_accounted` (external
`datafusion` proxy) — inserts the new entry and accounts memory usage
incrementally; the accounting increment, which in the code is the entry
size plus occasional table growth, is abstracted as `esz`. -/
def insertAccounted (m : ArrowBytesMap V) (e : Entry V) (esz : Nat) : ArrowBytesMap V :=
  { m with map := m.map ++ [e], map_size := m.map_size + esz }

/-- The per-value body of the loop of `insert_if_new_inner`.  Returns the
new state, the argument `make_payload_fn` was invoked with (if invoked),
and the payload passed to `observe_payload_fn` (always invoked). -/
def stepIfNew (h : Option Bytes → Nat) (esz : Nat) (make : Option Bytes → V)
    (m : ArrowBytesMap V) :
    Option Bytes → ArrowBytesMap V × Option (Option Bytes) × V
  | none =>
    match m.null with
    | some (payload, _offset) => (m, none, payload)
    | none =>
      let payload := make none
      let null_index := m.offsets.length - 1
      let offset := m.buffer.length
      ({ m with offsets := m.offsets ++ [offset], null := some (payload, null_index) },
        some none, payload)
  | some value =>
    if value.length ≤ SHORT_VALUE_LEN then
      match mapGet h m value with
      | some entry => (m, none, entry.payload)
      | none =>
        let buffer' := m.buffer ++ value
        let payload := make (some value)
        let newHeader : Entry V :=
          { hash := h (some value), len := value.length
            offset_or_inline := inlineOf value, payload := payload }
        (insertAccounted
            { m with buffer := buffer', offsets := m.offsets ++ [buffer'.length] }
            newHeader esz,
          some (some value), payload)
    else
      match mapGet h m value with
      | some entry => (m, none, entry.payload)
      | none =>
        let offset := m.buffer.length
        let buffer' := m.buffer ++ value
        let payload := make (some value)
        let newHeader : Entry V :=
          { hash := h (some value), len := value.length
            offset_or_inline := offset, payload := payload }
        (insertAccounted
            { m with buffer := buffer', offsets := m.offsets ++ [buffer'.length] }
            newHeader esz,
          some (some value), payload)

/-- The per-value body of the loop of `insert_or_update_inner`.  Returns the
new state, the argument `make_payload_fn` was invoked with (if invoked),
and the pre-update payload passed to `update_payload_fn` (if invoked). -/
def stepOrUpdate (h : Option Bytes → Nat) (esz : Nat) (make : Option Bytes → V)
    (update : V → V) (m : ArrowBytesMap V) :
    Option Bytes → ArrowBytesMap V × Option (Option Bytes) × Option V
  | none =>
    match m.null with
    | some (payload, idx) =>
      ({ m with null := some (update payload, idx) }, none, some payload)
    | none =>
      let payload := make none
      let null_index := m.offsets.length - 1
      let offset := m.buffer.length
      ({ m with offsets := m.offsets ++ [offset], null := some (payload, null_index) },
        some none, none)
  | some value =>
    if value.length ≤ SHORT_VALUE_LEN then
      match mapGet h m value with
      | some entry =>
        ({ m with map := updateFirst (probeOf h m.buffer value) update m.map },
          none, some entry.payload)
      | none =>
        let buffer' := m.buffer ++ value
        let payload := make (some value)
        let newHeader : Entry V :=
          { hash := h (some value), len := value.length
            offset_or_inline := inlineOf value, payload := payload }
        (insertAccounted
            { m with buffer := buffer', offsets := m.offsets ++ [buffer'.length] }
            newHeader esz,
          some (some value), none)
    else
      match mapGet h m value with
      | some entry =>
        ({ m with map := updateFirst (probeOf h m.buffer value) update m.map },
          none, some entry.payload)
      | none =>
        let offset := m.buffer.length
        let buffer' := m.buffer ++ value
        let payload := make (some value)
        let newHeader : Entry V :=
          { hash := h (some value), len := value.length
            offset_or_inline := offset, payload := payload }
        (insertAccounted
            { m with buffer := buffer', offsets := m.offsets ++ [buffer'.length] }
            newHeader esz,
          some (some value), none)

/-- The `for (value, &hash) in values.iter().zip(...)` loop of
`insert_if_new_inner`, accumulating the `make_payload_fn` argument trace and
the `observe_payload_fn` call trace in invocation order. -/
def insertLoopIfNew (h : Option Bytes → Nat) (esz : Nat) (make : Option Bytes → V) :
    ArrowBytesMap V → List (Option Bytes) → ArrowBytesMap V × List (Option Bytes) × List V
  | m, [] => (m, [], [])
  | m, v :: vs =>
    let r := stepIfNew h esz make m v
    let rest := insertLoopIfNew h esz make r.1 vs
    (rest.1, r.2.1.toList ++ rest.2.1, r.2.2 :: rest.2.2)

/-- The corresponding loop of `insert_or_update_inner`, accumulating the
`make_payload_fn` argument trace and the `update_payload_fn` pre-update
payload trace in invocation order. -/
def insertLoopOrUpdate (h : Option Bytes → Nat) (esz : Nat) (make : Option Bytes → V)
    (update : V → V) :
    ArrowBytesMap V → List (Option Bytes) → ArrowBytesMap V × List (Option Bytes) × List V
  | m, [] => (m, [], [])
  | m, v :: vs =>
    let r := stepOrUpdate h esz make update m v
    let rest := insertLoopOrUpdate h esz make update r.1 vs
    (rest.1, r.2.1.toList ++ rest.2.1, r.2.2.toList ++ rest.2.2)

/-- The input batch: a columnar array of optional byte strings with its
declared Arrow data type. -/
structure BatchArray where
  data_type : DataType
  values : List (Option Bytes)
deriving DecidableEq, Repr

/-- `ArrowBytesMap::insert_if_new` (outer wrapper plus
`insert_if_new_inner`): kind assertion, batch hashing into the reused
`hashes_buffer`, `as_bytes` downcast, the per-value loop, and the final
offset overflow check.  Panics are `Except.error`. -/
def insertIfNew (h : Option Bytes → Nat) (esz : Nat) (ow : OffsetWidth)
    (make : Option Bytes → V) (m : ArrowBytesMap V) (arr : BatchArray) :
    Except String (ArrowBytesMap V × List (Option Bytes) × List V) :=
  if ¬ kindOk m.output_type arr.data_type then
    .error "assertion failed: input array kind disagrees with output type"
  else if arr.data_type ≠ exactDataType m.output_type ow then
    .error "as_bytes: array downcast failed"
  else if ow.maxRepr <
      (insertLoopIfNew h esz make { m with hashes_buffer := arr.values.map h }
        arr.values).1.buffer.length then
    .error "Put more bytes in buffer than can be represented by the offset type"
  else
    .ok (insertLoopIfNew h esz make { m with hashes_buffer := arr.values.map h } arr.values)

/-- `ArrowBytesMap::insert_or_update` (outer wrapper plus
`insert_or_update_inner`), analogously. -/
def insertOrUpdate (h : Option Bytes → Nat) (esz : Nat) (ow : OffsetWidth)
    (make : Option Bytes → V) (update : V → V) (m : ArrowBytesMap V) (arr : BatchArray) :
    Except String (ArrowBytesMap V × List (Option Bytes) × List V) :=
  if ¬ kindOk m.output_type arr.data_type then
    .error "assertion failed: input array kind disagrees with output type"
  else if arr.data_type ≠ exactDataType m.output_type ow then
    .error "as_bytes: array downcast failed"
  else if ow.maxRepr <
      (insertLoopOrUpdate h esz make update { m with hashes_buffer := arr.values.map h }
        arr.values).1.buffer.length then
    .error "Put more bytes in buffer than can be represented by the offset type"
  else
    .ok (insertLoopOrUpdate h esz make update { m with hashes_buffer := arr.values.map h } arr.values)

/-- The lookup loop of `get_payloads_inner`: for each value, the stored
payload if present (`self.null` for the null value, the probed entry's
payload otherwise), else `None`. -/
def getPayloadsInner (h : Option Bytes → Nat) (m : ArrowBytesMap V)
    (values : List (Option Bytes)) : List (Option V) :=
  values.map fun v =>
    match v with
    | none => m.null.map Prod.fst
    | some value => (mapGet h m value).map Entry.payload

/-- `ArrowBytesMap::get_payloads` (consumes `self` in the code; a pure
function here): kind assertion, `as_bytes` downcast, then pure lookups. -/
def getPayloads (h : Option Bytes → Nat) (ow : OffsetWidth) (m : ArrowBytesMap V)
    (arr : BatchArray) : Except String (List (Option V)) :=
  if ¬ kindOk m.output_type arr.data_type then
    .error "assertion failed: input array kind disagrees with output type"
  else if arr.data_type ≠ exactDataType m.output_type ow then
    .error "as_bytes: array downcast failed"
  else
    .ok (getPayloadsInner h m arr.values)

/-- `fn single_null_buffer(num_values, null_index)`: all-valid bits with the
single `null_index` bit cleared. -/
def singleNullBuffer (num_values null_index : Nat) : List Bool :=
  (List.replicate num_values true).set null_index false

/-- The materialized output array: offsets buffer, values buffer and
optional null bitmap, as assembled by `into_state` (validity is not
re-checked there — `new_unchecked` conversions). -/
structure MaterializedArray where
  output_type : OutputType
  offsets : List Nat
  values : Bytes
  nulls : Option (List Bool)
deriving DecidableEq, Repr

/-- `ArrowBytesMap::into_state`. -/
def ArrowBytesMap.into_state (m : ArrowBytesMap V) : MaterializedArray :=
  { output_type := m.output_type
    offsets := m.offsets
    values := m.buffer
    nulls := m.null.map fun pn => singleNullBuffer (m.offsets.length - 1) pn.2 }

/-- Arrow semantics of a materialized array: position `i` is valid unless
the null bitmap clears it. -/
def MaterializedArray.validAt (a : MaterializedArray) (i : Nat) : Bool :=
  match a.nulls with
  | none => true
  | some bl => bl.getD i true

/-- Arrow semantics of a materialized array: the logical sequence of
optional byte strings it denotes (`offsets[i]..offsets[i+1]` delimits the
bytes of row `i`). -/
def MaterializedArray.logicalValues (a : MaterializedArray) : List (Option Bytes) :=
  (List.range (a.offsets.length - 1)).map fun i =>
    if a.validAt i then
      some (sliceAt a.values (a.offsets.getD i 0) (a.offsets.getD (i + 1) 0 - a.offsets.getD i 0))
    else none

/-! ## The abstract view

A map state is abstracted by the list of its distinct keys in
first-insertion order, each paired with its current payload (`AbsState`).
`Represents` ties every concrete field to this list; the insertion
protocols refine the corresponding abstract steps. -/

/-- Abstract contents: distinct keys in first-insertion order with their
payloads (at most one `none` key; `some`-keys pairwise distinct). -/
abbrev AbsState (V : Type) := List (Option Bytes × V)

/-- The bytes a key contributes to the buffer (nulls contribute none). -/
def bodyOf : Option Bytes → Bytes
  | none => []
  | some v => v

/-- The buffer lengths contributed by each abstract element. -/
def lensOf (abs : AbsState V) : List Nat :=
  abs.map fun e => (bodyOf e.1).length

/-- The buffer contents determined by the abstract state. -/
def absBuffer (abs : AbsState V) : Bytes :=
  (abs.map fun e => bodyOf e.1).flatten

/-- Prefix sums: `partialSums ls` has length `ls.length + 1`, starts at `0`
and ends at `ls.sum` — the shape of the offsets vector. -/
def partialSums (ls : List Nat) : List Nat :=
  (List.range (ls.length + 1)).map fun i => (ls.take i).sum

/-- The hash-table entries determined by the abstract state, threading the
starting buffer offset. -/
def entriesAux (h : Option Bytes → Nat) : Nat → AbsState V → List (Entry V)
  | _, [] => []
  | off, (none, _) :: rest => entriesAux h off rest
  | off, (some v, p) :: rest =>
    { hash := h (some v), len := v.length
      offset_or_inline := if v.length ≤ SHORT_VALUE_LEN then inlineOf v else off
      payload := p } :: entriesAux h (off + v.length) rest

/-- The null marker determined by the abstract state: payload and logical
index of the first `none` key, if any. -/
def absNull : AbsState V → Option (V × Nat)
  | [] => none
  | (none, p) :: _ => some (p, 0)
  | (some _, _) :: rest => (absNull rest).map fun pi => (pi.1, pi.2 + 1)

/-- The keys of the abstract state, in first-insertion order. -/
def absKeys (abs : AbsState V) : List (Option Bytes) :=
  abs.map Prod.fst

/-- The payload currently associated with a key, if present. -/
def absFind (abs : AbsState V) (v : Option Bytes) : Option V :=
  (abs.find? fun e => decide (e.1 = v)).map Prod.snd

/-- The abstraction relation: the concrete state is exactly the canonical
encoding of a well-formed abstract state (the scratch fields `map_size` and
`hashes_buffer` are unconstrained). -/
def Represents (h : Option Bytes → Nat) (abs : AbsState V) (m : ArrowBytesMap V) : Prop :=
  (absKeys abs).Nodup ∧
  m.map = entriesAux h 0 abs ∧
  m.buffer = absBuffer abs ∧
  m.offsets = partialSums (lensOf abs) ∧
  m.null = absNull abs

/-- Update the payload of the first element with the given key. -/
def updatePayloadAt (v : Option Bytes) (f : V → V) : AbsState V → AbsState V
  | [] => []
  | e :: rest => if e.1 = v then (e.1, f e.2) :: rest else e :: updatePayloadAt v f rest

/-- Abstract effect of one `insert_if_new` value: record a brand-new key
with its made payload; leave everything unchanged on a hit. -/
def absStepIfNew (make : Option Bytes → V) (abs : AbsState V) (v : Option Bytes) : AbsState V :=
  if v ∈ absKeys abs then abs else abs ++ [(v, make v)]

/-- Abstract effect of one `insert_or_update` value: update the payload in
place on a hit, record the key with its made payload on a miss. -/
def absStepOrUpdate (make : Option Bytes → V) (update : V → V)
    (abs : AbsState V) (v : Option Bytes) : AbsState V :=
  if v ∈ absKeys abs then updatePayloadAt v update abs else abs ++ [(v, make v)]

/-- Abstract effect of one inserted value on the key list: append it if it
is new (shared by both protocols, which only differ on payloads). -/
def absStepKey (ks : List (Option Bytes)) (v : Option Bytes) : List (Option Bytes) :=
  if v ∈ ks then ks else ks ++ [v]

/-- The distinct values of a sequence in first-occurrence order. -/
def distinctsOf (vs : List (Option Bytes)) : List (Option Bytes) :=
  vs.foldl absStepKey []

/-- One mixed-protocol operation applied to the map (claim C2 quantifies
over arbitrary interleavings of the two insertion protocols). -/
inductive MOp (V : Type) where
  | ifNew (make : Option Bytes → V) (arr : BatchArray) : MOp V
  | orUpdate (make : Option Bytes → V) (update : V → V) (arr : BatchArray) : MOp V

/-- The batch values an operation carries. -/
def MOp.values : MOp V → List (Option Bytes)
  | .ifNew _ arr => arr.values
  | .orUpdate _ _ arr => arr.values

/-- Run one mixed operation, keeping only the resulting state. -/
def runOp (h : Option Bytes → Nat) (esz : Nat) (ow : OffsetWidth)
    (m : ArrowBytesMap V) : MOp V → Except String (ArrowBytesMap V)
  | .ifNew make arr => (insertIfNew h esz ow make m arr).map (·.1)
  | .orUpdate make update arr => (insertOrUpdate h esz ow make update m arr).map (·.1)

/-- Run a sequence of mixed operations. -/
def runOps (h : Option Bytes → Nat) (esz : Nat) (ow : OffsetWidth)
    (m : ArrowBytesMap V) : List (MOp V) → Except String (ArrowBytesMap V)
  | [] => .ok m
  | op :: ops =>
    match runOp h esz ow m op with
    | .error e => .error e
    | .ok m' => runOps h esz ow m' ops

/-- States reachable from a freshly constructed map through the per-value
step functions (every mid-batch state is of this shape; setting the scratch
`hashes_buffer` is the batch-hashing phase). -/
inductive Reachable (h : Option Bytes → Nat) (esz : Nat) : ArrowBytesMap V → Prop where
  | new (ot : OutputType) : Reachable h esz (ArrowBytesMap.new V ot)
  | setHashes {m : ArrowBytesMap V} (hs : List Nat) :
      Reachable h esz m → Reachable h esz { m with hashes_buffer := hs }
  | ifNewStep {m : ArrowBytesMap V} (make : Option Bytes → V) (v : Option Bytes) :
      Reachable h esz m → Reachable h esz (stepIfNew h esz make m v).1
  | orUpdateStep {m : ArrowBytesMap V} (make : Option Bytes → V) (update : V → V)
      (v : Option Bytes) :
      Reachable h esz m → Reachable h esz (stepOrUpdate h esz make update m v).1

/-! ## Derived definitions used by the lemmas and claims below -/

/-- The canonical entry the abstract state assigns to the element
`(some w, p)` sitting at buffer offset `off`. -/
def mkEntry (h : Option Bytes → Nat) (off : Nat) (w : Bytes) (p : V) : Entry V :=
  { hash := h (some w), len := w.length
    offset_or_inline := if w.length ≤ SHORT_VALUE_LEN then inlineOf w else off
    payload := p }

/-- Reference lookup over the abstract state, threading the buffer offset:
the canonical entry of the first element whose key is `some v`. -/
def entryFor (h : Option Bytes → Nat) : Nat → AbsState V → Bytes → Option (Entry V)
  | _, [], _ => none
  | off, (none, _) :: rest, v => entryFor h off rest v
  | off, (some w, p) :: rest, v =>
    if v = w then some (mkEntry h off w p) else entryFor h (off + w.length) rest v

/-- The abstract effect of one operation of a mixed sequence. -/
def absApplyOp (abs : AbsState V) : MOp V → AbsState V
  | .ifNew make arr => arr.values.foldl (absStepIfNew make) abs
  | .orUpdate make update arr => arr.values.foldl (absStepOrUpdate make update) abs

/-- The abstract effect of a mixed sequence of operations. -/
def absRunOps : AbsState V → List (MOp V) → AbsState V
  | abs, [] => abs
  | abs, op :: ops => absRunOps (absApplyOp abs op) ops

/-- Occurrence count by propositional equality (instance-independent). -/
def countKey (ks : List (Option Bytes)) (x : Option Bytes) : Nat :=
  ks.countP fun k => decide (k = x)

/-- The structural invariant of the offsets sequence stated by the spec:
non-decreasing, starts at `0`, final element equals the buffer length,
length is the number of recorded distinct values (null slot included) plus
one, every span lies inside the buffer, and the null slot's span is
zero-length. -/
def OffsetsInv (m : ArrowBytesMap V) : Prop :=
  m.offsets ≠ []
  ∧ m.offsets.getD 0 0 = 0
  ∧ m.offsets.Pairwise (· ≤ ·)
  ∧ m.offsets.getLast? = some m.buffer.length
  ∧ m.offsets.length = (m.map.length + (if m.null.isSome then 1 else 0)) + 1
  ∧ (∀ i, i + 1 < m.offsets.length → m.offsets.getD (i + 1) 0 ≤ m.buffer.length)
  ∧ (∀ p idx, m.null = some (p, idx) →
      idx + 1 < m.offsets.length ∧ m.offsets.getD idx 0 = m.offsets.getD (idx + 1) 0)

/-- A sequence of `insert_if_new` batches (each with its own
`make_payload_fn`), applied in order. -/
def runIfNewBatches (h : Option Bytes → Nat) (esz : Nat) (ow : OffsetWidth)
    (m : ArrowBytesMap V) (bs : List ((Option Bytes → V) × BatchArray)) :
    Except String (ArrowBytesMap V) :=
  runOps h esz ow m (bs.map fun b => MOp.ifNew b.1 b.2)

/-- A degenerate hash function (all collisions): correctness never relies
on hash quality, only on the equality closure. -/
def h0 : Option Bytes → Nat := fun _ => 0

def cbA : Bytes := [(65 : Fin 256)]

def cbB : Bytes := [(66 : Fin 256)]

def cbC : Bytes := [(67 : Fin 256)]

def cbD : Bytes := [(68 : Fin 256)]

/-- An 8-byte key (exactly the inline threshold) packing to the word 1. -/
def c4k8 : Bytes := [0, 0, 0, 0, 0, 0, 0, (1 : Fin 256)]

/-- A 9-byte key (one past the threshold) whose zero-padded prefix packs to
the same word 1 as `c4k8`. -/
def c4k9 : Bytes := [0, 0, 0, 0, 0, 0, 0, 0, (1 : Fin 256)]

def c3batch : BatchArray :=
  { data_type := .Utf8, values := [some cbA, some cbB, some cbB, some cbC, some cbC] }

def c3query : BatchArray :=
  { data_type := .Utf8, values := [some cbA, some cbB, some cbC, some cbD] }

def c4batch : BatchArray :=
  { data_type := .Utf8, values := [some c4k8, some c4k9] }

/-- A small populated state used to witness the hit-path claims: it
represents the abstract contents `[("A", 5)]`. -/
def c8m : ArrowBytesMap Nat :=
  { output_type := .Utf8
    map := [{ hash := 0, offset_or_inline := 65, len := 1, payload := 5 }]
    map_size := 0
    buffer := cbA
    offsets := [0, 1]
    hashes_buffer := []
    null := none }

def c10m : ArrowBytesMap Nat :=
  { output_type := .Utf8
    map := []
    map_size := 0
    buffer := []
    offsets := [0, 0]
    hashes_buffer := []
    null := some (3, 0) }

def c1bs : List ((Option Bytes → Nat) × BatchArray) :=
  [(fun _ => 0, { data_type := .Utf8, values := [some cbA, none, some cbA] })]

def c1m : ArrowBytesMap Nat :=
  match runIfNewBatches h0 0 .w32 (ArrowBytesMap.new Nat .Utf8) c1bs with
  | .ok m => m
  | .error _ => ArrowBytesMap.new Nat .Utf8

def c2ops : List (MOp Nat) :=
  [MOp.orUpdate (fun _ => 1) (fun p => p + 1)
      { data_type := .Utf8, values := [some cbA, none] },
   MOp.ifNew (fun _ => 5) { data_type := .Utf8, values := [some cbB, none] }]

def c2m : ArrowBytesMap Nat :=
  match runOps h0 0 .w32 (ArrowBytesMap.new Nat .Utf8) c2ops with
  | .ok m => m
  | .error _ => ArrowBytesMap.new Nat .Utf8

def c7m : ArrowBytesMap Nat :=
  (stepIfNew h0 0 (fun _ => (0 : Nat)) (ArrowBytesMap.new Nat .Utf8) (some c4k9)).1

/-! ## Arithmetic of the inline packing -/

/-- The exact (unwrapped) big-endian value of a byte string:
`v = [b₀, …, bₙ₋₁] ↦ Σ bᵢ · 256 ^ (n - 1 - i)`, as a left fold. -/
def beVal (v : Bytes) : Nat :=
  v.foldl (fun acc x => acc * 256 + x.val) 0

theorem lor_eq_add_of_shiftLeft (n : Nat) :
    ∀ a b : Nat, b < 2 ^ n → (a <<< n) ||| b = a <<< n + b := by
  induction n with
  | zero =>
    intro a b hb
    interval_cases b
    simp
  | succ n ih =>
    intro a b hb
    have hb2 : b / 2 < 2 ^ n := by omega
    have h1 : a <<< (n + 1) = Nat.bit false (a <<< n) := by
      simp [Nat.bit, Nat.shiftLeft_eq, Nat.pow_succ]
      ring
    have h2 : b = Nat.bit (b % 2 == 1) (b / 2) := by
      rcases Nat.mod_two_eq_zero_or_one b with h | h <;> simp [Nat.bit, h] <;> omega
    rw [h1]
    conv_lhs => rw [h2]
    rw [Nat.lor_bit]
    have h3 := ih a (b / 2) hb2
    rcases Nat.mod_two_eq_zero_or_one b with h | h <;>
      simp [Nat.bit, h, h3] <;> omega

theorem beVal_foldl_acc (v : Bytes) :
    ∀ acc : Nat, v.foldl (fun a x => a * 256 + x.val) acc
      = acc * 256 ^ v.length + beVal v := by
  induction v with
  | nil => intro acc; simp [beVal]
  | cons x xs ih =>
    intro acc
    have h1 : beVal (x :: xs) = x.val * 256 ^ xs.length + beVal xs := by
      show List.foldl _ (0 * 256 + x.val) xs = _
      rw [ih (0 * 256 + x.val)]
      ring_nf
    show List.foldl _ (acc * 256 + x.val) xs = _
    rw [ih (acc * 256 + x.val), h1]
    simp [List.length_cons, pow_succ]
    ring

theorem beVal_lt (v : Bytes) : beVal v < 256 ^ v.length := by
  induction v with
  | nil => simp [beVal]
  | cons x xs ih =>
    have h1 : beVal (x :: xs) = x.val * 256 ^ xs.length + beVal xs := by
      show List.foldl _ (0 * 256 + x.val) xs = _
      rw [beVal_foldl_acc]
      ring_nf
    have hx : x.val + 1 ≤ 256 := x.isLt
    calc beVal (x :: xs) = x.val * 256 ^ xs.length + beVal xs := h1
      _ < x.val * 256 ^ xs.length + 256 ^ xs.length := by omega
      _ = (x.val + 1) * 256 ^ xs.length := by ring
      _ ≤ 256 * 256 ^ xs.length := Nat.mul_le_mul_right _ hx
      _ = 256 ^ (x :: xs).length := by rw [List.length_cons, pow_succ]; ring

theorem inlineOf_foldl_eq (v : Bytes) :
    ∀ acc : Nat, acc * 256 ^ v.length + beVal v < 2 ^ 64 →
      v.foldl (fun a x => ((a <<< 8) % 2 ^ 64) ||| x.val) acc
        = v.foldl (fun a x => a * 256 + x.val) acc := by
  induction v with
  | nil => intro acc _; rfl
  | cons x xs ih =>
    intro acc hacc
    have hxsval : beVal (x :: xs) = x.val * 256 ^ xs.length + beVal xs := by
      show List.foldl _ (0 * 256 + x.val) xs = _
      rw [beVal_foldl_acc]
      ring_nf
    have hlen : (x :: xs).length = xs.length + 1 := List.length_cons x xs
    have hple : 256 ≤ 256 ^ (xs.length + 1) := by
      calc (256:Nat) = 256 ^ 1 := (pow_one 256).symm
        _ ≤ 256 ^ (xs.length + 1) := Nat.pow_le_pow_right (by omega) (by omega)
    have hmul : acc * 256 ≤ acc * 256 ^ (xs.length + 1) := Nat.mul_le_mul_left acc hple
    have hsmall : acc * 256 + x.val < 2 ^ 64 := by
      have hbound : acc * 256 ^ (xs.length + 1) + beVal (x :: xs) < 2 ^ 64 := by
        rw [← hlen]; exact hacc
      have hxv : x.val ≤ beVal (x :: xs) := by
        have := beVal_lt xs
        have h256 : (0:Nat) < 256 ^ xs.length := Nat.pos_pow_of_pos _ (by omega)
        have : x.val * 1 ≤ x.val * 256 ^ xs.length := Nat.mul_le_mul_left _ h256
        omega
      omega
    have hstep : ((acc <<< 8) % 2 ^ 64) ||| x.val = acc * 256 + x.val := by
      have hsh : acc <<< 8 = acc * 256 := by rw [Nat.shiftLeft_eq]
      have hmod : (acc <<< 8) % 2 ^ 64 = acc <<< 8 := by
        apply Nat.mod_eq_of_lt
        rw [hsh]
        omega
      rw [hmod, lor_eq_add_of_shiftLeft 8 acc x.val x.isLt, hsh]
    show List.foldl _ (((acc <<< 8) % 2 ^ 64) ||| x.val) xs = List.foldl _ (acc * 256 + x.val) xs
    rw [hstep]
    apply ih
    have hexp : (acc * 256 + x.val) * 256 ^ xs.length
        = acc * 256 ^ (xs.length + 1) + x.val * 256 ^ xs.length := by
      rw [pow_succ]; ring
    rw [hexp, add_assoc, ← hxsval]
    rw [hlen] at hacc
    exact hacc

/-- For values at most `SHORT_VALUE_LEN` bytes long, the wrapped fold of the
code computes the exact big-endian packing: no bits are lost. -/
theorem inlineOf_eq_beVal (v : Bytes) (hv : v.length ≤ SHORT_VALUE_LEN) :
    inlineOf v = beVal v := by
  have hlt : beVal v < 2 ^ 64 := by
    have h1 := beVal_lt v
    have h2 : (256:Nat) ^ v.length ≤ 256 ^ 8 := Nat.pow_le_pow_right (by omega) hv
    have h3 : (256:Nat) ^ 8 = 2 ^ 64 := by norm_num
    omega
  have := inlineOf_foldl_eq v 0 (by simpa using hlt)
  simpa [inlineOf, beVal] using this

/-- Big-endian packing is injective on byte strings of equal length. -/
theorem beVal_inj (v w : Bytes) (hlen : v.length = w.length)
    (hval : beVal v = beVal w) : v = w := by
  induction v generalizing w with
  | nil => cases w with
    | nil => rfl
    | cons y ys => simp at hlen
  | cons x xs ih =>
    cases w with
    | nil => simp at hlen
    | cons y ys =>
      have hxv : beVal (x :: xs) = x.val * 256 ^ xs.length + beVal xs := by
        show List.foldl _ (0 * 256 + x.val) xs = _
        rw [beVal_foldl_acc]; ring_nf
      have hyv : beVal (y :: ys) = y.val * 256 ^ ys.length + beVal ys := by
        show List.foldl _ (0 * 256 + y.val) ys = _
        rw [beVal_foldl_acc]; ring_nf
      have hl : xs.length = ys.length := by simpa using hlen
      have hbx := beVal_lt xs
      have hby := beVal_lt ys
      rw [hxv, hyv, hl] at hval
      rw [hl] at hbx
      have hpos : (0:Nat) < 256 ^ ys.length := Nat.pos_pow_of_pos _ (by omega)
      have hx : x.val = y.val ∧ beVal xs = beVal ys := by
        have hdx : (x.val * 256 ^ ys.length + beVal xs) / 256 ^ ys.length = x.val := by
          rw [add_comm, Nat.add_mul_div_right _ _ hpos, Nat.div_eq_of_lt hbx, Nat.zero_add]
        have hdy : (y.val * 256 ^ ys.length + beVal ys) / 256 ^ ys.length = y.val := by
          rw [add_comm, Nat.add_mul_div_right _ _ hpos, Nat.div_eq_of_lt hby, Nat.zero_add]
        have hxy : x.val = y.val := by rw [← hdx, ← hdy, hval]
        constructor
        · exact hxy
        · have hval2 := hval
          rw [hxy] at hval2
          exact Nat.add_left_cancel hval2
      have hfin : x = y := Fin.ext hx.1
      rw [hfin, ih ys (by simpa using hlen) hx.2]

/-- Injectivity of the stored inline word for short values of equal
length: the basis of the "compare the packed word only" equality rule. -/
theorem inlineOf_inj (v w : Bytes) (hlen : v.length = w.length)
    (hs : v.length ≤ SHORT_VALUE_LEN) (hval : inlineOf v = inlineOf w) : v = w := by
  have hw : w.length ≤ SHORT_VALUE_LEN := hlen ▸ hs
  rw [inlineOf_eq_beVal v hs, inlineOf_eq_beVal w hw] at hval
  exact beVal_inj v w hlen hval

/-! ## Prefix sums and buffer slicing -/

theorem partialSums_length (ls : List Nat) :
    (partialSums ls).length = ls.length + 1 := by
  simp [partialSums]

theorem partialSums_getElem? (ls : List Nat) (i : Nat) (hi : i ≤ ls.length) :
    (partialSums ls)[i]? = some (ls.take i).sum := by
  simp only [partialSums, List.getElem?_map, List.getElem?_range (by omega : i < ls.length + 1)]
  rfl

theorem partialSums_getD (ls : List Nat) (i : Nat) (hi : i ≤ ls.length) :
    (partialSums ls).getD i 0 = (ls.take i).sum := by
  rw [List.getD_eq_getElem?_getD, partialSums_getElem? ls i hi]
  rfl

theorem partialSums_nil : partialSums [] = [0] := rfl

theorem partialSums_snoc (ls : List Nat) (l : Nat) :
    partialSums (ls ++ [l]) = partialSums ls ++ [ls.sum + l] := by
  simp only [partialSums, List.length_append, List.length_singleton]
  rw [List.range_succ, List.map_append]
  congr 1
  · apply List.map_congr_left
    intro i hi
    rw [List.mem_range] at hi
    rw [List.take_append_of_le_length (by omega)]
  · simp [List.take_length]

theorem sum_take_le (ls : List Nat) (i j : Nat) (hij : i ≤ j) :
    (ls.take i).sum ≤ (ls.take j).sum := by
  have h1 : (ls.take j).take i = ls.take i := by
    rw [List.take_take]
    congr 1
    omega
  calc (ls.take i).sum = ((ls.take j).take i).sum := by rw [h1]
    _ ≤ ((ls.take j).take i).sum + ((ls.take j).drop i).sum := Nat.le_add_right _ _
    _ = (ls.take j).sum := by rw [← List.sum_append, List.take_append_drop]

theorem partialSums_pairwise (ls : List Nat) :
    (partialSums ls).Pairwise (· ≤ ·) := by
  unfold partialSums
  exact List.Pairwise.map _ (fun i j hij => sum_take_le ls i j (le_of_lt hij))
    (List.pairwise_lt_range (ls.length + 1))

theorem absBuffer_nil : absBuffer ([] : AbsState V) = [] := rfl

theorem absBuffer_append (xs ys : AbsState V) :
    absBuffer (xs ++ ys) = absBuffer xs ++ absBuffer ys := by
  simp [absBuffer]

theorem absBuffer_cons (e : Option Bytes × V) (rest : AbsState V) :
    absBuffer (e :: rest) = bodyOf e.1 ++ absBuffer rest := rfl

theorem absBuffer_length (abs : AbsState V) :
    (absBuffer abs).length = (lensOf abs).sum := by
  simp only [absBuffer, lensOf, List.length_flatten, List.map_map]
  rfl

theorem sliceAt_zero (buf tail : Bytes) :
    sliceAt (buf ++ tail) 0 buf.length = buf := by
  unfold sliceAt
  rw [List.drop_zero]
  exact List.take_left buf tail

theorem sliceAt_exact (pre w rest : Bytes) :
    sliceAt (pre ++ (w ++ rest)) pre.length w.length = w := by
  unfold sliceAt
  have h1 : (pre ++ (w ++ rest)).drop pre.length = w ++ rest := by
    have h2 := @List.drop_append Byte pre (w ++ rest) 0
    rw [Nat.add_zero, List.drop_zero] at h2
    exact h2
  rw [h1]
  exact List.take_left w rest

/-! ## The probe predicate identifies keys exactly -/

/-- Against a buffer that holds `w` exactly at offset `pre.length`, the
hash-and-equality probe for `v` accepts the canonical entry for `w` exactly
when `v = w` — hash collisions never cause false positives, and matching
keys are always accepted. -/
theorem entryMatches_mkEntry (h : Option Bytes → Nat) (pre w rest : Bytes) (p : V) (v : Bytes) :
    entryMatches (pre ++ (w ++ rest)) v (mkEntry h pre.length w p) = decide (v = w) := by
  show (if w.length ≠ v.length then false
      else if v.length ≤ SHORT_VALUE_LEN then
        inlineOf v == (if w.length ≤ SHORT_VALUE_LEN then inlineOf w else pre.length)
      else
        v == sliceAt (pre ++ (w ++ rest))
          (if w.length ≤ SHORT_VALUE_LEN then inlineOf w else pre.length) w.length)
    = decide (v = w)
  by_cases hlen : w.length = v.length
  · rw [if_neg (by simp [hlen])]
    by_cases hs : v.length ≤ SHORT_VALUE_LEN
    · rw [if_pos hs, if_pos (by omega)]
      by_cases hvw : v = w
      · subst hvw
        simp
      · rw [decide_eq_false hvw]
        simp only [beq_eq_false_iff_ne, ne_eq]
        intro heq
        exact hvw (inlineOf_inj v w hlen.symm hs heq)
    · rw [if_neg hs, if_neg (by omega)]
      rw [sliceAt_exact pre w rest]
      by_cases hvw : v = w
      · subst hvw
        simp
      · rw [decide_eq_false hvw]
        simp [hvw]
  · rw [if_pos (by simp [hlen])]
    have hvw : v ≠ w := by
      intro hc
      exact hlen (by rw [hc])
    rw [decide_eq_false hvw]

theorem probe_eq_decide (h : Option Bytes → Nat) (pre w rest : Bytes) (p : V) (v : Bytes) :
    probeOf h (pre ++ (w ++ rest)) v (mkEntry h pre.length w p) = decide (v = w) := by
  show ((mkEntry h pre.length w p).hash == h (some v)
      && entryMatches (pre ++ (w ++ rest)) v (mkEntry h pre.length w p))
    = decide (v = w)
  rw [entryMatches_mkEntry h pre w rest p v]
  by_cases hvw : v = w
  · subst hvw
    simp [mkEntry]
  · simp [hvw]

theorem find?_entriesAux (h : Option Bytes → Nat) (v : Bytes) :
    ∀ (abs : AbsState V) (pre B : Bytes), B = pre ++ absBuffer abs →
      (entriesAux h pre.length abs).find? (probeOf h B v)
        = entryFor h pre.length abs v := by
  intro abs
  induction abs with
  | nil => intro pre B hB; rfl
  | cons e rest ih =>
    intro pre B hB
    match e with
    | (none, q) =>
      show ((entriesAux h pre.length rest).find? _) = entryFor h pre.length rest v
      apply ih
      rw [hB, absBuffer_cons]
      rfl
    | (some w, p) =>
      have hentry : entriesAux h pre.length ((some w, p) :: rest)
          = mkEntry h pre.length w p :: entriesAux h (pre.length + w.length) rest := rfl
      rw [hentry, List.find?_cons]
      have hBs : B = pre ++ (w ++ absBuffer rest) := by
        rw [hB, absBuffer_cons]
        rfl
      rw [hBs, probe_eq_decide h pre w (absBuffer rest) p v]
      by_cases hvw : v = w
      · rw [decide_eq_true hvw]
        show some (mkEntry h pre.length w p) = entryFor h pre.length ((some w, p) :: rest) v
        unfold entryFor
        rw [if_pos hvw]
      · rw [decide_eq_false hvw]
        show ((entriesAux h (pre.length + w.length) rest).find? _)
            = entryFor h pre.length ((some w, p) :: rest) v
        have hpre : pre.length + w.length = (pre ++ w).length := (List.length_append pre w).symm
        have hrec := ih (pre ++ w) (pre ++ (w ++ absBuffer rest)) (by rw [List.append_assoc])
        rw [hpre]
        unfold entryFor
        rw [if_neg hvw, ← hpre] at *
        exact hrec

theorem entryFor_eq_none_iff (h : Option Bytes → Nat) (v : Bytes) :
    ∀ (abs : AbsState V) (off : Nat),
      entryFor h off abs v = none ↔ some v ∉ absKeys abs := by
  intro abs
  induction abs with
  | nil => intro off; simp [entryFor, absKeys]
  | cons e rest ih =>
    intro off
    match e with
    | (none, q) =>
      show entryFor h off rest v = none ↔ _
      rw [ih off]
      simp [absKeys]
    | (some w, p) =>
      show (if v = w then some (mkEntry h off w p) else entryFor h (off + w.length) rest v)
          = none ↔ _
      by_cases hvw : v = w
      · subst hvw
        simp [absKeys]
      · rw [if_neg hvw, ih (off + w.length)]
        simp [absKeys, hvw, Ne.symm hvw]

theorem entryFor_payload (h : Option Bytes → Nat) (v : Bytes) :
    ∀ (abs : AbsState V) (off : Nat) (e : Entry V),
      entryFor h off abs v = some e → absFind abs (some v) = some e.payload := by
  intro abs
  induction abs with
  | nil => intro off e he; simp [entryFor] at he
  | cons hd rest ih =>
    intro off e he
    match hd with
    | (none, q) =>
      have hrec := ih off e he
      show ((List.find? _ ((none, q) :: rest)).map Prod.snd) = some e.payload
      rw [List.find?_cons_of_neg _ (by simp)]
      exact hrec
    | (some w, p) =>
      by_cases hvw : v = w
      · subst hvw
        unfold entryFor at he
        rw [if_pos rfl] at he
        show ((List.find? _ ((some v, p) :: rest)).map Prod.snd) = some e.payload
        rw [List.find?_cons_of_pos _ (by simp)]
        cases he
        rfl
      · unfold entryFor at he
        rw [if_neg hvw] at he
        have hrec := ih (off + w.length) e he
        show ((List.find? _ ((some w, p) :: rest)).map Prod.snd) = some e.payload
        rw [List.find?_cons_of_neg _ (by simp [Ne.symm hvw])]
        exact hrec

theorem entryFor_fields (h : Option Bytes → Nat) (v : Bytes) :
    ∀ (abs : AbsState V) (off : Nat) (e : Entry V),
      entryFor h off abs v = some e →
        e.hash = h (some v) ∧ e.len = v.length ∧
          (v.length ≤ SHORT_VALUE_LEN → e.offset_or_inline = inlineOf v) := by
  intro abs
  induction abs with
  | nil => intro off e he; simp [entryFor] at he
  | cons hd rest ih =>
    intro off e he
    match hd with
    | (none, q) => exact ih off e he
    | (some w, p) =>
      by_cases hvw : v = w
      · subst hvw
        unfold entryFor at he
        rw [if_pos rfl] at he
        cases he
        refine ⟨rfl, rfl, ?_⟩
        intro hs
        show (if v.length ≤ SHORT_VALUE_LEN then inlineOf v else off) = inlineOf v
        rw [if_pos hs]
      · unfold entryFor at he
        rw [if_neg hvw] at he
        exact ih (off + w.length) e he

/-! ## Structural lemmas on the abstract encoding -/

theorem lensOf_append (xs ys : AbsState V) :
    lensOf (xs ++ ys) = lensOf xs ++ lensOf ys := by
  simp [lensOf]

theorem entriesAux_append (h : Option Bytes → Nat) :
    ∀ (xs ys : AbsState V) (off : Nat),
      entriesAux h off (xs ++ ys)
        = entriesAux h off xs ++ entriesAux h (off + (lensOf xs).sum) ys := by
  intro xs
  induction xs with
  | nil => intro ys off; simp [entriesAux, lensOf]
  | cons e rest ih =>
    intro ys off
    match e with
    | (none, q) =>
      show entriesAux h off (rest ++ ys) = entriesAux h off rest ++ _
      rw [ih ys off]
      congr 2
      simp [lensOf, bodyOf]
    | (some w, p) =>
      show mkEntry h off w p :: entriesAux h (off + w.length) (rest ++ ys)
          = mkEntry h off w p :: entriesAux h (off + w.length) rest ++ _
      rw [ih ys (off + w.length)]
      simp only [List.cons_append, List.cons.injEq, true_and]
      congr 2
      simp [lensOf, bodyOf]
      omega

theorem updateFirst_entriesAux (h : Option Bytes → Nat) (v : Bytes) (f : V → V) :
    ∀ (abs : AbsState V) (pre B : Bytes), B = pre ++ absBuffer abs →
      updateFirst (probeOf h B v) f (entriesAux h pre.length abs)
        = entriesAux h pre.length (updatePayloadAt (some v) f abs) := by
  intro abs
  induction abs with
  | nil => intro pre B hB; rfl
  | cons e rest ih =>
    intro pre B hB
    match e with
    | (none, q) =>
      have hkey : ((none : Option Bytes), q).1 ≠ some v := by simp
      show updateFirst _ f (entriesAux h pre.length rest)
          = entriesAux h pre.length (updatePayloadAt (some v) f ((none, q) :: rest))
      unfold updatePayloadAt
      rw [if_neg hkey]
      show _ = entriesAux h pre.length (updatePayloadAt (some v) f rest)
      apply ih
      rw [hB, absBuffer_cons]
      rfl
    | (some w, p) =>
      have hBs : B = pre ++ (w ++ absBuffer rest) := by
        rw [hB, absBuffer_cons]
        rfl
      have hentries : entriesAux h pre.length ((some w, p) :: rest)
          = mkEntry h pre.length w p :: entriesAux h (pre.length + w.length) rest := rfl
      rw [hentries]
      unfold updateFirst
      rw [hBs, probe_eq_decide h pre w (absBuffer rest) p v]
      by_cases hvw : v = w
      · rw [if_pos (decide_eq_true hvw)]
        show ({ mkEntry h pre.length w p with payload := f p } : Entry V) :: _
            = entriesAux h pre.length (updatePayloadAt (some v) f ((some w, p) :: rest))
        unfold updatePayloadAt
        rw [if_pos (by simp [hvw])]
        rfl
      · rw [if_neg (by simp [hvw])]
        show mkEntry h pre.length w p :: updateFirst _ f (entriesAux h (pre.length + w.length) rest)
            = entriesAux h pre.length (updatePayloadAt (some v) f ((some w, p) :: rest))
        unfold updatePayloadAt
        rw [if_neg (by simp [Ne.symm hvw])]
        show _ = mkEntry h pre.length w p :: entriesAux h (pre.length + w.length)
            (updatePayloadAt (some v) f rest)
        congr 1
        have hpre : pre.length + w.length = (pre ++ w).length := (List.length_append pre w).symm
        rw [hpre]
        rw [hBs] at *
        exact ih (pre ++ w) (pre ++ (w ++ absBuffer rest)) (by rw [List.append_assoc])

theorem absKeys_updatePayloadAt (v : Option Bytes) (f : V → V) :
    ∀ abs : AbsState V, absKeys (updatePayloadAt v f abs) = absKeys abs := by
  intro abs
  induction abs with
  | nil => rfl
  | cons e rest ih =>
    unfold updatePayloadAt
    by_cases hk : e.1 = v
    · rw [if_pos hk]
      simp [absKeys]
    · rw [if_neg hk]
      show e.1 :: absKeys (updatePayloadAt v f rest) = e.1 :: absKeys rest
      rw [ih]

theorem lensOf_eq_of_keys {abs abs' : AbsState V} (hk : absKeys abs = absKeys abs') :
    lensOf abs = lensOf abs' := by
  have h1 : ∀ xs : AbsState V, lensOf xs = (absKeys xs).map fun k => (bodyOf k).length := by
    intro xs
    simp [lensOf, absKeys]
  rw [h1, h1, hk]

theorem absBuffer_eq_of_keys {abs abs' : AbsState V} (hk : absKeys abs = absKeys abs') :
    absBuffer abs = absBuffer abs' := by
  have h1 : ∀ xs : AbsState V, absBuffer xs = ((absKeys xs).map bodyOf).flatten := by
    intro xs
    simp [absBuffer, absKeys, Function.comp_def]
  rw [h1, h1, hk]

theorem absNull_none_iff : ∀ abs : AbsState V, absNull abs = none ↔ none ∉ absKeys abs := by
  intro abs
  induction abs with
  | nil => simp [absNull, absKeys]
  | cons e rest ih =>
    match e with
    | (none, q) => simp [absNull, absKeys]
    | (some w, q) =>
      show (absNull rest).map _ = none ↔ _
      have hmap : ((absNull rest).map fun pi => (pi.1, pi.2 + 1)) = none ↔ absNull rest = none := by
        cases absNull rest <;> simp
      rw [hmap, ih]
      simp [absKeys]

theorem absNull_snoc_some (abs : AbsState V) (w : Bytes) (p : V) :
    absNull (abs ++ [(some w, p)]) = absNull abs := by
  induction abs with
  | nil => rfl
  | cons e rest ih =>
    match e with
    | (none, q) => rfl
    | (some u, q) =>
      show (absNull (rest ++ [(some w, p)])).map _ = (absNull rest).map _
      rw [ih]

theorem absNull_snoc_none (abs : AbsState V) (p : V) (habs : none ∉ absKeys abs) :
    absNull (abs ++ [(none, p)]) = some (p, abs.length) := by
  induction abs with
  | nil => rfl
  | cons e rest ih =>
    match e with
    | (none, q) =>
      exact absurd (by simp [absKeys]) habs
    | (some u, q) =>
      have hrest : none ∉ absKeys rest := by
        intro hc
        exact habs (by simp [absKeys] at *; exact hc)
      show (absNull (rest ++ [(none, p)])).map _ = _
      rw [ih hrest]
      simp

theorem absNull_find :
    ∀ (abs : AbsState V) (p : V) (i : Nat),
      absNull abs = some (p, i) → absFind abs none = some p := by
  intro abs
  induction abs with
  | nil => intro p i hn; simp [absNull] at hn
  | cons e rest ih =>
    intro p i hn
    match e with
    | (none, q) =>
      have : q = p := by
        simp [absNull] at hn
        exact hn.1
      subst this
      show ((List.find? _ ((none, q) :: rest)).map Prod.snd) = some q
      rw [List.find?_cons_of_pos _ (by simp)]
      rfl
    | (some w, q) =>
      have hn2 : ∃ j, absNull rest = some (p, j) := by
        show ∃ j, _
        simp only [absNull] at hn
        cases hr : absNull rest with
        | none => rw [hr] at hn; simp at hn
        | some pj =>
          rw [hr] at hn
          simp at hn
          exact ⟨pj.2, by rw [← hn.1]⟩
      obtain ⟨j, hj⟩ := hn2
      show ((List.find? _ ((some w, q) :: rest)).map Prod.snd) = some p
      rw [List.find?_cons_of_neg _ (by simp)]
      exact ih p j hj

theorem absNull_updatePayloadAt_none (f : V → V) :
    ∀ abs : AbsState V,
      absNull (updatePayloadAt none f abs) = (absNull abs).map fun pi => (f pi.1, pi.2) := by
  intro abs
  induction abs with
  | nil => rfl
  | cons e rest ih =>
    match e with
    | (none, q) =>
      show absNull ((none, f q) :: rest) = _
      rfl
    | (some w, q) =>
      show (absNull (updatePayloadAt none f rest)).map (fun pi => (pi.1, pi.2 + 1))
          = ((absNull rest).map fun pi => (pi.1, pi.2 + 1)).map fun pi => (f pi.1, pi.2)
      rw [ih]
      cases absNull rest <;> rfl

theorem absNull_updatePayloadAt_some (v : Bytes) (f : V → V) :
    ∀ abs : AbsState V, absNull (updatePayloadAt (some v) f abs) = absNull abs := by
  intro abs
  induction abs with
  | nil => rfl
  | cons e rest ih =>
    match e with
    | (none, q) =>
      show absNull ((none, q) :: updatePayloadAt (some v) f rest) = _
      rfl
    | (some w, q) =>
      unfold updatePayloadAt
      by_cases hk : w = v
      · rw [if_pos (by simp [hk])]
        rfl
      · rw [if_neg (by simp [hk])]
        show (absNull (updatePayloadAt (some v) f rest)).map _ = (absNull rest).map _
        rw [ih]

theorem entriesAux_updatePayloadAt_none (h : Option Bytes → Nat) (f : V → V) :
    ∀ (abs : AbsState V) (off : Nat),
      entriesAux h off (updatePayloadAt none f abs) = entriesAux h off abs := by
  intro abs
  induction abs with
  | nil => intro off; rfl
  | cons e rest ih =>
    intro off
    match e with
    | (none, q) =>
      show entriesAux h off ((none, f q) :: rest) = _
      rfl
    | (some w, q) =>
      show mkEntry h off w q :: entriesAux h (off + w.length) (updatePayloadAt none f rest)
          = mkEntry h off w q :: entriesAux h (off + w.length) rest
      rw [ih]

/-! ## Step refinement: the concrete steps track the abstract steps -/

theorem absKeys_append (xs ys : AbsState V) :
    absKeys (xs ++ ys) = absKeys xs ++ absKeys ys := by
  simp [absKeys]

theorem nodup_snoc_key {ks : List (Option Bytes)} (k : Option Bytes)
    (hnd : ks.Nodup) (hk : k ∉ ks) : (ks ++ [k]).Nodup := by
  rw [List.nodup_append]
  exact ⟨hnd, List.nodup_singleton k, List.disjoint_singleton.mpr hk⟩

theorem absFind_eq_none_iff (abs : AbsState V) (v : Option Bytes) :
    absFind abs v = none ↔ v ∉ absKeys abs := by
  unfold absFind
  rw [Option.map_eq_none']
  rw [List.find?_eq_none]
  constructor
  · intro hall hmem
    rw [absKeys] at hmem
    obtain ⟨e, he, hkey⟩ := List.mem_map.mp hmem
    have hne := hall e he
    simp only [decide_eq_true_eq] at hne
    exact hne hkey
  · intro hnmem e he
    simp only [decide_eq_true_eq]
    intro hkey
    exact hnmem (by rw [absKeys]; exact List.mem_map.mpr ⟨e, he, hkey⟩)

theorem absFind_snoc_self (abs : AbsState V) (v : Option Bytes) (p : V)
    (hmem : v ∉ absKeys abs) : absFind (abs ++ [(v, p)]) v = some p := by
  unfold absFind
  rw [List.find?_append]
  have h1 : (abs.find? fun e => decide (e.1 = v)) = none := by
    have := (absFind_eq_none_iff abs v).mpr hmem
    unfold absFind at this
    cases hf : abs.find? fun e => decide (e.1 = v)
    · rfl
    · rw [hf] at this; simp at this
  rw [h1]
  simp

theorem absFind_snoc_other (abs : AbsState V) (v w : Option Bytes) (p : V)
    (hne : w ≠ v) : absFind (abs ++ [(w, p)]) v = absFind abs v := by
  unfold absFind
  rw [List.find?_append]
  cases hf : abs.find? fun e => decide (e.1 = v)
  · simp [hne]
  · simp

/-- Under `Represents`, probing the hash table for `value` is exactly the
abstract reference lookup. -/
theorem mapGet_eq_entryFor (h : Option Bytes → Nat) {abs : AbsState V} {m : ArrowBytesMap V}
    (hrep : Represents h abs m) (value : Bytes) :
    mapGet h m value = entryFor h 0 abs value := by
  obtain ⟨_, hmap, hbuf, _, _⟩ := hrep
  unfold mapGet
  rw [hmap, hbuf]
  exact find?_entriesAux h value abs [] (absBuffer abs) (List.nil_append _).symm

/-- Shared refinement of the "new null value" path of both protocols:
push a zero-length offset boundary and record the null marker at the
current logical index. -/
theorem nullMiss_represents (h : Option Bytes → Nat) {abs : AbsState V} {m : ArrowBytesMap V}
    (hrep : Represents h abs m) (p : V) (hnull : m.null = none) :
    Represents h (abs ++ [(none, p)])
      { m with offsets := m.offsets ++ [m.buffer.length], null := some (p, m.offsets.length - 1) } := by
  obtain ⟨hnd, hmap, hbuf, hoff, hn⟩ := hrep
  have hnomem : (none : Option Bytes) ∉ absKeys abs := by
    rw [← absNull_none_iff]
    rw [← hn]
    exact hnull
  refine ⟨?_, ?_, ?_, ?_, ?_⟩
  · rw [absKeys_append]
    exact nodup_snoc_key none hnd hnomem
  · show m.map = entriesAux h 0 (abs ++ [(none, p)])
    rw [entriesAux_append]
    simp only [entriesAux, List.append_nil]
    exact hmap
  · show m.buffer = absBuffer (abs ++ [(none, p)])
    rw [absBuffer_append]
    simp only [absBuffer, bodyOf, List.map_cons, List.map_nil, List.flatten]
    simp only [List.flatten_nil, List.append_nil]
    exact hbuf
  · show m.offsets ++ [m.buffer.length] = partialSums (lensOf (abs ++ [(none, p)]))
    rw [lensOf_append]
    show _ = partialSums (lensOf abs ++ [(bodyOf none).length])
    rw [show (bodyOf (none : Option Bytes)).length = 0 from rfl, partialSums_snoc, Nat.add_zero]
    rw [hoff, hbuf, absBuffer_length]
  · show some (p, m.offsets.length - 1) = absNull (abs ++ [(none, p)])
    rw [absNull_snoc_none abs p hnomem, hoff, partialSums_length]
    have hlen : (lensOf abs).length = abs.length := List.length_map abs _
    rw [hlen]
    simp

/-- Shared refinement of the "brand-new non-null key" path of both
protocols: append the bytes to the buffer, push the new boundary, insert
the canonical entry (inline word for short values, arena offset for long
ones). -/
theorem insertMiss_represents (h : Option Bytes → Nat) (esz : Nat)
    {abs : AbsState V} {m : ArrowBytesMap V}
    (hrep : Represents h abs m) (value : Bytes) (p : V)
    (hmem : some value ∉ absKeys abs) :
    Represents h (abs ++ [(some value, p)])
      (insertAccounted
        { m with buffer := m.buffer ++ value, offsets := m.offsets ++ [(m.buffer ++ value).length] }
        { hash := h (some value), len := value.length
          offset_or_inline := if value.length ≤ SHORT_VALUE_LEN then inlineOf value else m.buffer.length
          payload := p } esz) := by
  obtain ⟨hnd, hmap, hbuf, hoff, hn⟩ := hrep
  have hsum : m.buffer.length = (lensOf abs).sum := by rw [hbuf, absBuffer_length]
  refine ⟨?_, ?_, ?_, ?_, ?_⟩
  · rw [absKeys_append]
    exact nodup_snoc_key (some value) hnd hmem
  · show m.map ++ [_] = entriesAux h 0 (abs ++ [(some value, p)])
    rw [entriesAux_append, hmap]
    congr 1
    show [_] = mkEntry h (0 + (lensOf abs).sum) value p :: entriesAux h _ []
    simp only [entriesAux, Nat.zero_add]
    unfold mkEntry
    rw [← hsum]
  · show m.buffer ++ value = absBuffer (abs ++ [(some value, p)])
    rw [absBuffer_append, hbuf]
    simp only [absBuffer, bodyOf, List.map_cons, List.map_nil]
    simp [List.flatten]
  · show m.offsets ++ [(m.buffer ++ value).length] = partialSums (lensOf (abs ++ [(some value, p)]))
    rw [lensOf_append]
    show _ = partialSums (lensOf abs ++ [(bodyOf (some value)).length])
    rw [show (bodyOf (some value)).length = value.length from rfl, partialSums_snoc]
    rw [hoff, List.length_append, hsum]
  · show m.null = absNull (abs ++ [(some value, p)])
    rw [absNull_snoc_some]
    exact hn

/-- Refinement of one `insert_if_new` value: the concrete step tracks
`absStepIfNew`; `make_payload_fn` is invoked exactly on brand-new keys; the
observed payload is the key's stored payload; and on a hit the state is
left entirely unchanged. -/
theorem stepIfNew_refines (h : Option Bytes → Nat) (esz : Nat) (make : Option Bytes → V)
    {abs : AbsState V} {m : ArrowBytesMap V} (hrep : Represents h abs m) (v : Option Bytes) :
    Represents h (absStepIfNew make abs v) (stepIfNew h esz make m v).1
    ∧ (stepIfNew h esz make m v).2.1 = (if v ∈ absKeys abs then none else some v)
    ∧ absFind (absStepIfNew make abs v) v = some (stepIfNew h esz make m v).2.2
    ∧ (v ∈ absKeys abs →
        (stepIfNew h esz make m v).1 = m
          ∧ absFind abs v = some (stepIfNew h esz make m v).2.2) := by
  have hnullrep : m.null = absNull abs := hrep.2.2.2.2
  match v with
  | none =>
    cases hn : m.null with
    | some pi =>
      have hmem : (none : Option Bytes) ∈ absKeys abs := by
        by_contra hc
        rw [← absNull_none_iff] at hc
        rw [← hnullrep, hn] at hc
        cases hc
      have hstep : stepIfNew h esz make m none = (m, none, pi.1) := by
        simp only [stepIfNew]
        rw [hn]
      have habs : absStepIfNew make abs none = abs := by
        unfold absStepIfNew
        rw [if_pos hmem]
      have hfind : absFind abs none = some pi.1 := by
        apply absNull_find abs pi.1 pi.2
        rw [← hnullrep, hn]
      rw [hstep, habs, if_pos hmem]
      exact ⟨hrep, rfl, hfind, fun _ => ⟨rfl, hfind⟩⟩
    | none =>
      have hmem : (none : Option Bytes) ∉ absKeys abs := by
        rw [← absNull_none_iff, ← hnullrep]
        exact hn
      have hstep : stepIfNew h esz make m none
          = ({ m with offsets := m.offsets ++ [m.buffer.length],
                      null := some (make none, m.offsets.length - 1) },
             some none, make none) := by
        simp only [stepIfNew]
        rw [hn]
      have habs : absStepIfNew make abs none = abs ++ [(none, make none)] := by
        unfold absStepIfNew
        rw [if_neg hmem]
      rw [hstep, habs, if_neg hmem]
      refine ⟨nullMiss_represents h hrep (make none) hn, rfl, ?_, fun hc => absurd hc hmem⟩
      exact absFind_snoc_self abs none (make none) hmem
  | some value =>
    have hget : mapGet h m value = entryFor h 0 abs value := mapGet_eq_entryFor h hrep value
    cases hef : entryFor h 0 abs value with
    | some e =>
      have hmem : some value ∈ absKeys abs := by
        by_contra hc
        rw [← entryFor_eq_none_iff h value abs 0] at hc
        rw [hef] at hc
        cases hc
      have hstep : stepIfNew h esz make m (some value) = (m, none, e.payload) := by
        simp only [stepIfNew]
        by_cases hs : value.length ≤ SHORT_VALUE_LEN
        · rw [if_pos hs, hget, hef]
        · rw [if_neg hs, hget, hef]
      have habs : absStepIfNew make abs (some value) = abs := by
        unfold absStepIfNew
        rw [if_pos hmem]
      have hfind : absFind abs (some value) = some e.payload := entryFor_payload h value abs 0 e hef
      rw [hstep, habs, if_pos hmem]
      exact ⟨hrep, rfl, hfind, fun _ => ⟨rfl, hfind⟩⟩
    | none =>
      have hmem : some value ∉ absKeys abs := by
        rw [← entryFor_eq_none_iff h value abs 0]
        exact hef
      have habs : absStepIfNew make abs (some value) = abs ++ [(some value, make (some value))] := by
        unfold absStepIfNew
        rw [if_neg hmem]
      have hrepmiss := insertMiss_represents h esz hrep value (make (some value)) hmem
      have hstep : stepIfNew h esz make m (some value)
          = (insertAccounted
              { m with buffer := m.buffer ++ value,
                       offsets := m.offsets ++ [(m.buffer ++ value).length] }
              { hash := h (some value), len := value.length
                offset_or_inline :=
                  if value.length ≤ SHORT_VALUE_LEN then inlineOf value else m.buffer.length
                payload := make (some value) } esz,
             some (some value), make (some value)) := by
        simp only [stepIfNew]
        by_cases hs : value.length ≤ SHORT_VALUE_LEN
        · rw [if_pos hs, hget, hef]
          simp only [if_pos hs]
        · rw [if_neg hs, hget, hef]
          simp only [if_neg hs]
      rw [hstep, habs, if_neg hmem]
      refine ⟨hrepmiss, rfl, ?_, fun hc => absurd hc hmem⟩
      exact absFind_snoc_self abs (some value) (make (some value)) hmem

/-- Refinement of one `insert_or_update` value: the concrete step tracks
`absStepOrUpdate`; `make_payload_fn` is invoked exactly on brand-new keys
and `update_payload_fn` exactly on hits, receiving the stored payload. -/
theorem stepOrUpdate_refines (h : Option Bytes → Nat) (esz : Nat) (make : Option Bytes → V)
    (update : V → V) {abs : AbsState V} {m : ArrowBytesMap V}
    (hrep : Represents h abs m) (v : Option Bytes) :
    Represents h (absStepOrUpdate make update abs v) (stepOrUpdate h esz make update m v).1
    ∧ (stepOrUpdate h esz make update m v).2.1 = (if v ∈ absKeys abs then none else some v)
    ∧ (stepOrUpdate h esz make update m v).2.2
        = (if v ∈ absKeys abs then absFind abs v else none) := by
  obtain ⟨hnd, hmap, hbuf, hoff, hnullrep⟩ := hrep
  have hrep : Represents h abs m := ⟨hnd, hmap, hbuf, hoff, hnullrep⟩
  match v with
  | none =>
    cases hn : m.null with
    | some pi =>
      obtain ⟨p, i⟩ := pi
      have hmem : (none : Option Bytes) ∈ absKeys abs := by
        by_contra hc
        rw [← absNull_none_iff] at hc
        rw [← hnullrep, hn] at hc
        cases hc
      have hstep : stepOrUpdate h esz make update m none
          = ({ m with null := some (update p, i) }, none, some p) := by
        simp only [stepOrUpdate]
        rw [hn]
      have habs : absStepOrUpdate make update abs none = updatePayloadAt none update abs := by
        unfold absStepOrUpdate
        rw [if_pos hmem]
      have hkeys := absKeys_updatePayloadAt none update abs
      have hfind : absFind abs none = some p := by
        apply absNull_find abs p i
        rw [← hnullrep, hn]
      rw [hstep, habs, hfind, if_pos hmem, if_pos hmem]
      refine ⟨⟨?_, ?_, ?_, ?_, ?_⟩, rfl, rfl⟩
      · rw [hkeys]; exact hnd
      · show m.map = _
        rw [entriesAux_updatePayloadAt_none]
        exact hmap
      · show m.buffer = _
        rw [absBuffer_eq_of_keys hkeys]
        exact hbuf
      · show m.offsets = _
        rw [lensOf_eq_of_keys hkeys]
        exact hoff
      · show some (update p, i) = _
        rw [absNull_updatePayloadAt_none, ← hnullrep, hn]
        rfl
    | none =>
      have hmem : (none : Option Bytes) ∉ absKeys abs := by
        rw [← absNull_none_iff, ← hnullrep]
        exact hn
      have hstep : stepOrUpdate h esz make update m none
          = ({ m with offsets := m.offsets ++ [m.buffer.length],
                      null := some (make none, m.offsets.length - 1) },
             some none, none) := by
        simp only [stepOrUpdate]
        rw [hn]
      have habs : absStepOrUpdate make update abs none = abs ++ [(none, make none)] := by
        unfold absStepOrUpdate
        rw [if_neg hmem]
      rw [hstep, habs, if_neg hmem, if_neg hmem]
      exact ⟨nullMiss_represents h hrep (make none) hn, rfl, rfl⟩
  | some value =>
    have hget : mapGet h m value = entryFor h 0 abs value := mapGet_eq_entryFor h hrep value
    cases hef : entryFor h 0 abs value with
    | some e =>
      have hmem : some value ∈ absKeys abs := by
        by_contra hc
        rw [← entryFor_eq_none_iff h value abs 0] at hc
        rw [hef] at hc
        cases hc
      have hstep : stepOrUpdate h esz make update m (some value)
          = ({ m with map := updateFirst (probeOf h m.buffer value) update m.map },
             none, some e.payload) := by
        simp only [stepOrUpdate]
        by_cases hs : value.length ≤ SHORT_VALUE_LEN
        · rw [if_pos hs, hget, hef]
        · rw [if_neg hs, hget, hef]
      have habs : absStepOrUpdate make update abs (some value)
          = updatePayloadAt (some value) update abs := by
        unfold absStepOrUpdate
        rw [if_pos hmem]
      have hkeys := absKeys_updatePayloadAt (some value) update abs
      have hfind : absFind abs (some value) = some e.payload :=
        entryFor_payload h value abs 0 e hef
      rw [hstep, habs, hfind, if_pos hmem, if_pos hmem]
      refine ⟨⟨?_, ?_, ?_, ?_, ?_⟩, rfl, rfl⟩
      · rw [hkeys]; exact hnd
      · show updateFirst _ update m.map = _
        rw [hmap, hbuf]
        exact updateFirst_entriesAux h value update abs [] (absBuffer abs) (List.nil_append _).symm
      · show m.buffer = _
        rw [absBuffer_eq_of_keys hkeys]
        exact hbuf
      · show m.offsets = _
        rw [lensOf_eq_of_keys hkeys]
        exact hoff
      · show m.null = _
        rw [absNull_updatePayloadAt_some]
        exact hnullrep
    | none =>
      have hmem : some value ∉ absKeys abs := by
        rw [← entryFor_eq_none_iff h value abs 0]
        exact hef
      have habs : absStepOrUpdate make update abs (some value)
          = abs ++ [(some value, make (some value))] := by
        unfold absStepOrUpdate
        rw [if_neg hmem]
      have hstep : stepOrUpdate h esz make update m (some value)
          = (insertAccounted
              { m with buffer := m.buffer ++ value,
                       offsets := m.offsets ++ [(m.buffer ++ value).length] }
              { hash := h (some value), len := value.length
                offset_or_inline :=
                  if value.length ≤ SHORT_VALUE_LEN then inlineOf value else m.buffer.length
                payload := make (some value) } esz,
             some (some value), none) := by
        simp only [stepOrUpdate]
        by_cases hs : value.length ≤ SHORT_VALUE_LEN
        · rw [if_pos hs, hget, hef]
          simp only [if_pos hs]
        · rw [if_neg hs, hget, hef]
          simp only [if_neg hs]
      rw [hstep, habs, if_neg hmem, if_neg hmem]
      exact ⟨insertMiss_represents h esz hrep value (make (some value)) hmem, rfl, rfl⟩

/-! ## Loop- and batch-level refinement, and reachability -/

theorem represents_setHashes (h : Option Bytes → Nat) {abs : AbsState V} {m : ArrowBytesMap V}
    (hrep : Represents h abs m) (hs : List Nat) :
    Represents h abs { m with hashes_buffer := hs } := by
  obtain ⟨hnd, hmap, hbuf, hoff, hn⟩ := hrep
  exact ⟨hnd, hmap, hbuf, hoff, hn⟩

theorem insertLoopIfNew_refines (h : Option Bytes → Nat) (esz : Nat) (make : Option Bytes → V) :
    ∀ (vs : List (Option Bytes)) {abs : AbsState V} {m : ArrowBytesMap V},
      Represents h abs m →
      Represents h (vs.foldl (absStepIfNew make) abs) (insertLoopIfNew h esz make m vs).1
        ∧ (insertLoopIfNew h esz make m vs).2.2.length = vs.length := by
  intro vs
  induction vs with
  | nil => intro abs m hrep; exact ⟨hrep, rfl⟩
  | cons v vs ih =>
    intro abs m hrep
    have hstep := stepIfNew_refines h esz make hrep v
    have hrec := ih hstep.1
    unfold insertLoopIfNew
    refine ⟨hrec.1, ?_⟩
    simp only [List.length_cons]
    rw [hrec.2]

theorem insertLoopOrUpdate_refines (h : Option Bytes → Nat) (esz : Nat)
    (make : Option Bytes → V) (update : V → V) :
    ∀ (vs : List (Option Bytes)) {abs : AbsState V} {m : ArrowBytesMap V},
      Represents h abs m →
      Represents h (vs.foldl (absStepOrUpdate make update) abs)
        (insertLoopOrUpdate h esz make update m vs).1 := by
  intro vs
  induction vs with
  | nil => intro abs m hrep; exact hrep
  | cons v vs ih =>
    intro abs m hrep
    have hstep := stepOrUpdate_refines h esz make update hrep v
    exact ih hstep.1

theorem insertIfNew_ok_refines (h : Option Bytes → Nat) (esz : Nat) (ow : OffsetWidth)
    (make : Option Bytes → V) {abs : AbsState V} {m : ArrowBytesMap V} {arr : BatchArray}
    {r : ArrowBytesMap V × List (Option Bytes) × List V}
    (hrep : Represents h abs m) (hok : insertIfNew h esz ow make m arr = .ok r) :
    Represents h (arr.values.foldl (absStepIfNew make) abs) r.1
      ∧ r.2.2.length = arr.values.length := by
  unfold insertIfNew at hok
  split at hok
  · exact Except.noConfusion hok
  · split at hok
    · exact Except.noConfusion hok
    · split at hok
      · exact Except.noConfusion hok
      · cases hok
        exact insertLoopIfNew_refines h esz make arr.values
          (represents_setHashes h hrep (arr.values.map h))

theorem insertOrUpdate_ok_refines (h : Option Bytes → Nat) (esz : Nat) (ow : OffsetWidth)
    (make : Option Bytes → V) (update : V → V) {abs : AbsState V} {m : ArrowBytesMap V}
    {arr : BatchArray} {r : ArrowBytesMap V × List (Option Bytes) × List V}
    (hrep : Represents h abs m) (hok : insertOrUpdate h esz ow make update m arr = .ok r) :
    Represents h (arr.values.foldl (absStepOrUpdate make update) abs) r.1 := by
  unfold insertOrUpdate at hok
  split at hok
  · exact Except.noConfusion hok
  · split at hok
    · exact Except.noConfusion hok
    · split at hok
      · exact Except.noConfusion hok
      · cases hok
        exact insertLoopOrUpdate_refines h esz make update arr.values
          (represents_setHashes h hrep (arr.values.map h))

/-- The freshly constructed map represents the empty abstract state. -/
theorem represents_new (h : Option Bytes → Nat) (ot : OutputType) :
    Represents h ([] : AbsState V) (ArrowBytesMap.new V ot) := by
  refine ⟨List.nodup_nil, rfl, rfl, ?_, rfl⟩
  rfl

theorem runOps_ok_refines (h : Option Bytes → Nat) (esz : Nat) (ow : OffsetWidth) :
    ∀ (ops : List (MOp V)) {abs : AbsState V} {m m' : ArrowBytesMap V},
      Represents h abs m → runOps h esz ow m ops = .ok m' →
      Represents h (absRunOps abs ops) m' := by
  intro ops
  induction ops with
  | nil =>
    intro abs m m' hrep hok
    cases hok
    exact hrep
  | cons op ops ih =>
    intro abs m m' hrep hok
    unfold runOps at hok
    cases hop : runOp h esz ow m op with
    | error e => rw [hop] at hok; exact Except.noConfusion hok
    | ok m1 =>
      rw [hop] at hok
      apply ih _ hok
      match op with
      | .ifNew make arr =>
        simp only [runOp] at hop
        cases hraw : insertIfNew h esz ow make m arr with
        | error e => rw [hraw] at hop; exact Except.noConfusion hop
        | ok r =>
          rw [hraw] at hop
          simp only [Except.map] at hop
          cases hop
          exact (insertIfNew_ok_refines h esz ow make hrep hraw).1
      | .orUpdate make update arr =>
        simp only [runOp] at hop
        cases hraw : insertOrUpdate h esz ow make update m arr with
        | error e => rw [hraw] at hop; exact Except.noConfusion hop
        | ok r =>
          rw [hraw] at hop
          simp only [Except.map] at hop
          cases hop
          exact insertOrUpdate_ok_refines h esz ow make update hrep hraw

/-- Every reachable state is an encoding of some well-formed abstract
state: the master structural invariant. -/
theorem reachable_represents (h : Option Bytes → Nat) (esz : Nat) {m : ArrowBytesMap V}
    (hr : Reachable h esz m) : ∃ abs : AbsState V, Represents h abs m := by
  induction hr with
  | new ot => exact ⟨[], represents_new h ot⟩
  | setHashes hs _ ih =>
    obtain ⟨abs, hrep⟩ := ih
    exact ⟨abs, represents_setHashes h hrep hs⟩
  | ifNewStep make v _ ih =>
    obtain ⟨abs, hrep⟩ := ih
    exact ⟨absStepIfNew make abs v, (stepIfNew_refines h esz make hrep v).1⟩
  | orUpdateStep make update v _ ih =>
    obtain ⟨abs, hrep⟩ := ih
    exact ⟨absStepOrUpdate make update abs v, (stepOrUpdate_refines h esz make update hrep v).1⟩

theorem reachable_insertLoopIfNew (h : Option Bytes → Nat) (esz : Nat) (make : Option Bytes → V) :
    ∀ (vs : List (Option Bytes)) {m : ArrowBytesMap V}, Reachable h esz m →
      Reachable h esz (insertLoopIfNew h esz make m vs).1 := by
  intro vs
  induction vs with
  | nil => intro m hr; exact hr
  | cons v vs ih =>
    intro m hr
    exact ih (Reachable.ifNewStep make v hr)

theorem reachable_insertLoopOrUpdate (h : Option Bytes → Nat) (esz : Nat)
    (make : Option Bytes → V) (update : V → V) :
    ∀ (vs : List (Option Bytes)) {m : ArrowBytesMap V}, Reachable h esz m →
      Reachable h esz (insertLoopOrUpdate h esz make update m vs).1 := by
  intro vs
  induction vs with
  | nil => intro m hr; exact hr
  | cons v vs ih =>
    intro m hr
    exact ih (Reachable.orUpdateStep make update v hr)

theorem reachable_insertIfNew (h : Option Bytes → Nat) (esz : Nat) (ow : OffsetWidth)
    (make : Option Bytes → V) {m : ArrowBytesMap V} {arr : BatchArray}
    {r : ArrowBytesMap V × List (Option Bytes) × List V}
    (hr : Reachable h esz m) (hok : insertIfNew h esz ow make m arr = .ok r) :
    Reachable h esz r.1 := by
  unfold insertIfNew at hok
  split at hok
  · exact Except.noConfusion hok
  · split at hok
    · exact Except.noConfusion hok
    · split at hok
      · exact Except.noConfusion hok
      · cases hok
        exact reachable_insertLoopIfNew h esz make arr.values
          (Reachable.setHashes (arr.values.map h) hr)

theorem reachable_insertOrUpdate (h : Option Bytes → Nat) (esz : Nat) (ow : OffsetWidth)
    (make : Option Bytes → V) (update : V → V) {m : ArrowBytesMap V} {arr : BatchArray}
    {r : ArrowBytesMap V × List (Option Bytes) × List V}
    (hr : Reachable h esz m) (hok : insertOrUpdate h esz ow make update m arr = .ok r) :
    Reachable h esz r.1 := by
  unfold insertOrUpdate at hok
  split at hok
  · exact Except.noConfusion hok
  · split at hok
    · exact Except.noConfusion hok
    · split at hok
      · exact Except.noConfusion hok
      · cases hok
        exact reachable_insertLoopOrUpdate h esz make update arr.values
          (Reachable.setHashes (arr.values.map h) hr)

theorem reachable_runOps (h : Option Bytes → Nat) (esz : Nat) (ow : OffsetWidth) :
    ∀ (ops : List (MOp V)) {m m' : ArrowBytesMap V},
      Reachable h esz m → runOps h esz ow m ops = .ok m' → Reachable h esz m' := by
  intro ops
  induction ops with
  | nil =>
    intro m m' hr hok
    cases hok
    exact hr
  | cons op ops ih =>
    intro m m' hr hok
    unfold runOps at hok
    cases hop : runOp h esz ow m op with
    | error e => rw [hop] at hok; exact Except.noConfusion hok
    | ok m1 =>
      rw [hop] at hok
      apply ih _ hok
      match op with
      | .ifNew make arr =>
        simp only [runOp] at hop
        cases hraw : insertIfNew h esz ow make m arr with
        | error e => rw [hraw] at hop; exact Except.noConfusion hop
        | ok r =>
          rw [hraw] at hop
          simp only [Except.map] at hop
          cases hop
          exact reachable_insertIfNew h esz ow make hr hraw
      | .orUpdate make update arr =>
        simp only [runOp] at hop
        cases hraw : insertOrUpdate h esz ow make update m arr with
        | error e => rw [hraw] at hop; exact Except.noConfusion hop
        | ok r =>
          rw [hraw] at hop
          simp only [Except.map] at hop
          cases hop
          exact reachable_insertOrUpdate h esz ow make update hr hraw

/-! ## Decoding the materialized array -/

theorem sliceAt_append (a b : Bytes) (s len : Nat) :
    sliceAt (a ++ b) (a.length + s) len = sliceAt b s len := by
  unfold sliceAt
  rw [List.drop_append]

theorem lensOf_length (abs : AbsState V) : (lensOf abs).length = abs.length :=
  List.length_map abs _

theorem absKeys_length (abs : AbsState V) : (absKeys abs).length = abs.length :=
  List.length_map abs _

theorem slice_at_index :
    ∀ (abs : AbsState V) (i : Nat) (v : Bytes), (absKeys abs)[i]? = some (some v) →
      (lensOf abs).getD i 0 = v.length ∧
      sliceAt (absBuffer abs) (((lensOf abs).take i).sum) v.length = v := by
  intro abs
  induction abs with
  | nil => intro i v hkey; simp [absKeys] at hkey
  | cons e rest ih =>
    intro i v hkey
    match i with
    | 0 =>
      have he : e.1 = some v := by
        simp [absKeys] at hkey
        exact hkey
      constructor
      · show (lensOf (e :: rest)).getD 0 0 = v.length
        simp [lensOf, he, bodyOf]
      · show sliceAt (absBuffer (e :: rest)) 0 v.length = v
        rw [absBuffer_cons, he]
        show sliceAt (v ++ absBuffer rest) 0 v.length = v
        have := sliceAt_zero v (absBuffer rest)
        simpa using this
    | i + 1 =>
      have hkey2 : (absKeys rest)[i]? = some (some v) := by
        simpa [absKeys] using hkey
      have hrec := ih i v hkey2
      constructor
      · show (lensOf (e :: rest)).getD (i + 1) 0 = v.length
        simpa [lensOf] using hrec.1
      · show sliceAt (absBuffer (e :: rest)) (((lensOf (e :: rest)).take (i + 1)).sum) v.length = v
        rw [absBuffer_cons]
        have htake : ((lensOf (e :: rest)).take (i + 1)).sum
            = (bodyOf e.1).length + ((lensOf rest).take i).sum := by
          simp [lensOf]
        rw [htake, sliceAt_append]
        exact hrec.2

theorem singleNullBuffer_getD (n idx i : Nat) (hi : i < n) :
    (singleNullBuffer n idx).getD i true = if i = idx then false else true := by
  unfold singleNullBuffer
  rw [List.getD_eq_getElem?_getD, List.getElem?_set]
  by_cases hii : idx = i
  · subst hii
    rw [if_pos rfl, if_pos (by rw [List.length_replicate]; omega)]
    simp
  · rw [if_neg hii, List.getElem?_replicate, if_pos hi]
    simp [Ne.symm hii]

theorem absNull_getElem? :
    ∀ (abs : AbsState V) (p : V) (idx : Nat), absNull abs = some (p, idx) →
      idx < abs.length ∧ (absKeys abs)[idx]? = some none := by
  intro abs
  induction abs with
  | nil => intro p idx hn; simp [absNull] at hn
  | cons e rest ih =>
    intro p idx hn
    match e with
    | (none, q) =>
      have hidx : idx = 0 := by
        simp [absNull] at hn
        omega
      subst hidx
      exact ⟨by simp, by simp [absKeys]⟩
    | (some w, q) =>
      have hn2 : ∃ j, absNull rest = some (p, j) ∧ idx = j + 1 := by
        simp only [absNull] at hn
        cases hr : absNull rest with
        | none => rw [hr] at hn; simp at hn
        | some pj =>
          rw [hr] at hn
          simp at hn
          exact ⟨pj.2, by rw [← hn.1], by omega⟩
      obtain ⟨j, hj, hidx⟩ := hn2
      subst hidx
      have hrec := ih p j hj
      constructor
      · simp only [List.length_cons]
        omega
      · simpa [absKeys] using hrec.2

/-- Decoding theorem: under `Represents`, the logical contents of the
materialized array are exactly the abstract key list — each distinct value
once, in first-insertion order, with the null at its first-seen index. -/
theorem logicalValues_into_state (h : Option Bytes → Nat) {abs : AbsState V}
    {m : ArrowBytesMap V} (hrep : Represents h abs m) :
    (ArrowBytesMap.into_state m).logicalValues = absKeys abs := by
  obtain ⟨hnd, hmap, hbuf, hoff, hnull⟩ := hrep
  have hofflen : (ArrowBytesMap.into_state m).offsets.length - 1 = abs.length := by
    show m.offsets.length - 1 = abs.length
    rw [hoff, partialSums_length, lensOf_length]
    omega
  unfold MaterializedArray.logicalValues
  rw [hofflen]
  apply List.ext_getElem?
  intro i
  rw [List.getElem?_map]
  by_cases hi : i < abs.length
  · rw [List.getElem?_range hi]
    have hkey : ∃ k, (absKeys abs)[i]? = some k := by
      have : i < (absKeys abs).length := by rw [absKeys_length]; exact hi
      exact ⟨(absKeys abs).get ⟨i, this⟩, List.getElem?_eq_some.mpr ⟨this, rfl⟩⟩
    obtain ⟨k, hk⟩ := hkey
    rw [hk]
    simp only [Option.map_some']
    -- valid bit at i
    have hvalid : (ArrowBytesMap.into_state m).validAt i = (if k = none then false else true) := by
      show (match (ArrowBytesMap.into_state m).nulls with
        | none => true
        | some bl => bl.getD i true) = _
      show (match m.null.map fun pn => singleNullBuffer (m.offsets.length - 1) pn.2 with
        | none => true
        | some bl => bl.getD i true) = _
      rw [hnull]
      cases hn : absNull abs with
      | none =>
        have hnomem : none ∉ absKeys abs := (absNull_none_iff abs).mp hn
        have hkne : k ≠ none := by
          intro hc
          subst hc
          exact hnomem (List.getElem?_mem hk)
        rw [if_neg hkne]
        rfl
      | some pidx =>
        obtain ⟨hlt, hat⟩ := absNull_getElem? abs pidx.1 pidx.2 hn
        show (singleNullBuffer (m.offsets.length - 1) pidx.2).getD i true = _
        rw [hoff, partialSums_length, lensOf_length]
        show (singleNullBuffer (abs.length + 1 - 1) pidx.2).getD i true = _
        rw [show abs.length + 1 - 1 = abs.length from rfl]
        rw [singleNullBuffer_getD abs.length pidx.2 i hi]
        by_cases hii : i = pidx.2
        · subst hii
          rw [hk] at hat
          cases hat
          rw [if_pos rfl, if_pos rfl]
        · rw [if_neg hii]
          have hkne : k ≠ none := by
            intro hc
            subst hc
            have heq : i = pidx.2 := by
              apply List.getElem?_inj _ hnd
              · rw [hk, hat]
              · rw [absKeys_length]; exact hi
            exact hii heq
          rw [if_neg hkne]
    cases k with
    | none =>
      rw [if_pos rfl] at hvalid
      simp only [hvalid]
      simp
    | some v =>
      rw [if_neg (by simp)] at hvalid
      simp only [hvalid]
      simp only [if_true]
      -- decode the slice
      obtain ⟨hlen, hslice⟩ := slice_at_index abs i v hk
      have hoffi : (ArrowBytesMap.into_state m).offsets.getD i 0 = ((lensOf abs).take i).sum := by
        show m.offsets.getD i 0 = _
        rw [hoff]
        exact partialSums_getD (lensOf abs) i (by rw [lensOf_length]; omega)
      have hoffi1 : (ArrowBytesMap.into_state m).offsets.getD (i + 1) 0
          = ((lensOf abs).take (i + 1)).sum := by
        show m.offsets.getD (i + 1) 0 = _
        rw [hoff]
        exact partialSums_getD (lensOf abs) (i + 1) (by rw [lensOf_length]; omega)
      have hdiff : ((lensOf abs).take (i + 1)).sum - ((lensOf abs).take i).sum = v.length := by
        have hsplit : (lensOf abs).take (i + 1) = (lensOf abs).take i ++ ((lensOf abs).drop i).take 1 := by
          rw [← List.take_append_drop i ((lensOf abs).take (i + 1))]
          congr 1
          · rw [List.take_take]
            congr 1
            omega
          · rw [List.drop_take]
            congr 1
            omega
        have hgd : ((lensOf abs).drop i).take 1 = [v.length] := by
          have hlt : i < (lensOf abs).length := by rw [lensOf_length]; exact hi
          have hdropne : (lensOf abs).drop i = (lensOf abs).getD i 0 :: (lensOf abs).drop (i + 1) := by
            rw [List.getD_eq_getElem?_getD]
            rw [List.drop_eq_getElem_cons hlt]
            congr 1
            rw [List.getElem?_eq_some.mpr ⟨hlt, rfl⟩]
            rfl
          rw [hdropne, hlen]
          rfl
        rw [hsplit, List.sum_append, hgd]
        simp
      rw [hoffi, hoffi1, hdiff]
      show some (some (sliceAt m.buffer (((lensOf abs).take i).sum) v.length)) = some (some v)
      rw [hbuf, hslice]
  · have hrange : (List.range abs.length)[i]? = none := by
      rw [List.getElem?_eq_none_iff, List.length_range]
      omega
    have hkeys : (absKeys abs)[i]? = none := by
      rw [List.getElem?_eq_none_iff, absKeys_length]
      omega
    rw [hrange, hkeys]
    rfl

/-! ## Keys across runs, and distinctness -/

theorem absKeys_absStepIfNew (make : Option Bytes → V) (abs : AbsState V) (v : Option Bytes) :
    absKeys (absStepIfNew make abs v) = absStepKey (absKeys abs) v := by
  unfold absStepIfNew absStepKey
  by_cases hmem : v ∈ absKeys abs
  · rw [if_pos hmem, if_pos hmem]
  · rw [if_neg hmem, if_neg hmem, absKeys_append]
    rfl

theorem absKeys_absStepOrUpdate (make : Option Bytes → V) (update : V → V)
    (abs : AbsState V) (v : Option Bytes) :
    absKeys (absStepOrUpdate make update abs v) = absStepKey (absKeys abs) v := by
  unfold absStepOrUpdate absStepKey
  by_cases hmem : v ∈ absKeys abs
  · rw [if_pos hmem, if_pos hmem, absKeys_updatePayloadAt]
  · rw [if_neg hmem, if_neg hmem, absKeys_append]
    rfl

theorem absKeys_foldl_ifNew (make : Option Bytes → V) :
    ∀ (vs : List (Option Bytes)) (abs : AbsState V),
      absKeys (vs.foldl (absStepIfNew make) abs) = vs.foldl absStepKey (absKeys abs) := by
  intro vs
  induction vs with
  | nil => intro abs; rfl
  | cons v vs ih =>
    intro abs
    show absKeys (vs.foldl (absStepIfNew make) (absStepIfNew make abs v))
        = vs.foldl absStepKey (absStepKey (absKeys abs) v)
    rw [ih, absKeys_absStepIfNew]

theorem absKeys_foldl_orUpdate (make : Option Bytes → V) (update : V → V) :
    ∀ (vs : List (Option Bytes)) (abs : AbsState V),
      absKeys (vs.foldl (absStepOrUpdate make update) abs) = vs.foldl absStepKey (absKeys abs) := by
  intro vs
  induction vs with
  | nil => intro abs; rfl
  | cons v vs ih =>
    intro abs
    show absKeys (vs.foldl (absStepOrUpdate make update) (absStepOrUpdate make update abs v))
        = vs.foldl absStepKey (absStepKey (absKeys abs) v)
    rw [ih, absKeys_absStepOrUpdate]

theorem absKeys_absRunOps :
    ∀ (ops : List (MOp V)) (abs : AbsState V),
      absKeys (absRunOps abs ops)
        = ((ops.map MOp.values).flatten).foldl absStepKey (absKeys abs) := by
  intro ops
  induction ops with
  | nil => intro abs; rfl
  | cons op ops ih =>
    intro abs
    show absKeys (absRunOps (absApplyOp abs op) ops) = _
    rw [ih]
    have hop : absKeys (absApplyOp abs op) = (MOp.values op).foldl absStepKey (absKeys abs) := by
      match op with
      | .ifNew make arr => exact absKeys_foldl_ifNew make arr.values abs
      | .orUpdate make update arr => exact absKeys_foldl_orUpdate make update arr.values abs
    rw [hop]
    show _ = ((MOp.values op ++ (ops.map MOp.values).flatten).foldl absStepKey (absKeys abs))
    rw [List.foldl_append]

theorem foldl_absStepKey_nodup :
    ∀ (vs : List (Option Bytes)) (ks : List (Option Bytes)), ks.Nodup →
      (vs.foldl absStepKey ks).Nodup := by
  intro vs
  induction vs with
  | nil => intro ks h; exact h
  | cons v vs ih =>
    intro ks hnd
    apply ih
    unfold absStepKey
    by_cases hmem : v ∈ ks
    · rw [if_pos hmem]; exact hnd
    · rw [if_neg hmem]; exact nodup_snoc_key v hnd hmem

theorem foldl_absStepKey_mem :
    ∀ (vs : List (Option Bytes)) (ks : List (Option Bytes)) (x : Option Bytes),
      x ∈ vs.foldl absStepKey ks ↔ x ∈ ks ∨ x ∈ vs := by
  intro vs
  induction vs with
  | nil => intro ks x; simp
  | cons v vs ih =>
    intro ks x
    show x ∈ vs.foldl absStepKey (absStepKey ks v) ↔ _
    rw [ih]
    unfold absStepKey
    by_cases hmem : v ∈ ks
    · rw [if_pos hmem]
      constructor
      · rintro (hx | hx)
        · exact Or.inl hx
        · exact Or.inr (List.mem_cons_of_mem v hx)
      · rintro (hx | hx)
        · exact Or.inl hx
        · rcases List.mem_cons.mp hx with hx | hx
          · subst hx; exact Or.inl hmem
          · exact Or.inr hx
    · rw [if_neg hmem]
      constructor
      · rintro (hx | hx)
        · rcases List.mem_append.mp hx with hx | hx
          · exact Or.inl hx
          · simp at hx
            exact Or.inr (by rw [hx]; exact List.mem_cons_self v vs)
        · exact Or.inr (List.mem_cons_of_mem v hx)
      · rintro (hx | hx)
        · exact Or.inl (List.mem_append.mpr (Or.inl hx))
        · rcases List.mem_cons.mp hx with hx | hx
          · subst hx
            exact Or.inl (List.mem_append.mpr (Or.inr (by simp)))
          · exact Or.inr hx

theorem distinctsOf_nodup (vs : List (Option Bytes)) : (distinctsOf vs).Nodup :=
  foldl_absStepKey_nodup vs [] List.nodup_nil

theorem distinctsOf_mem (vs : List (Option Bytes)) (x : Option Bytes) :
    x ∈ distinctsOf vs ↔ x ∈ vs := by
  unfold distinctsOf
  rw [foldl_absStepKey_mem vs [] x]
  simp

theorem countKey_eq_one :
    ∀ (ks : List (Option Bytes)) (x : Option Bytes), ks.Nodup → x ∈ ks → countKey ks x = 1 := by
  intro ks
  induction ks with
  | nil => intro x _ hx; cases hx
  | cons k rest ih =>
    intro x hnd hx
    have hnd2 := List.nodup_cons.mp hnd
    by_cases hkx : k = x
    · subst hkx
      unfold countKey
      rw [List.countP_cons_of_pos _ _ (by simp)]
      have hzero : rest.countP (fun j => decide (j = k)) = 0 := by
        rw [List.countP_eq_zero]
        intro a ha
        simp only [decide_eq_true_eq]
        intro hak
        subst hak
        exact hnd2.1 ha
      show rest.countP (fun j => decide (j = k)) + 1 = 1
      rw [hzero]
    · unfold countKey
      rw [List.countP_cons_of_neg _ _ (by simp [hkx])]
      have hxr : x ∈ rest := by
        rcases List.mem_cons.mp hx with hc | hc
        · exact absurd hc.symm hkx
        · exact hc
      exact ih x hnd2.2 hxr

theorem countKey_eq_zero (ks : List (Option Bytes)) (x : Option Bytes) (hx : x ∉ ks) :
    countKey ks x = 0 := by
  unfold countKey
  rw [List.countP_eq_zero]
  intro a ha
  simp only [decide_eq_true_eq]
  intro hax
  subst hax
  exact hx ha

theorem distinctsOf_count (vs : List (Option Bytes)) (x : Option Bytes) (hx : x ∈ vs) :
    countKey (distinctsOf vs) x = 1 :=
  countKey_eq_one (distinctsOf vs) x (distinctsOf_nodup vs) ((distinctsOf_mem vs x).mpr hx)

theorem entriesAux_length (h : Option Bytes → Nat) :
    ∀ (abs : AbsState V) (off : Nat),
      (entriesAux h off abs).length = ((absKeys abs).filter fun k => k.isSome).length := by
  intro abs
  induction abs with
  | nil => intro off; rfl
  | cons e rest ih =>
    intro off
    match e with
    | (none, q) =>
      show (entriesAux h off rest).length = _
      rw [ih off]
      rfl
    | (some w, p) =>
      show (entriesAux h (off + w.length) rest).length + 1 = _
      rw [ih (off + w.length)]
      rfl

theorem filter_isSome_of_not_none {ks : List (Option Bytes)} (hnm : none ∉ ks) :
    ks.filter (fun k => k.isSome) = ks := by
  induction ks with
  | nil => rfl
  | cons k rest ih =>
    have hk : k.isSome := by
      cases k with
      | none => exact absurd (List.mem_cons_self _ _) hnm
      | some v => rfl
    rw [List.filter_cons_of_pos hk]
    rw [ih fun hc => hnm (List.mem_cons_of_mem k hc)]

/-! ## The offsets invariant -/

theorem keys_length_split :
    ∀ ks : List (Option Bytes), ks.Nodup →
      ks.length = (ks.filter fun k => k.isSome).length + (if none ∈ ks then 1 else 0) := by
  intro ks
  induction ks with
  | nil => intro _; rfl
  | cons k rest ih =>
    intro hnd
    have hnd2 := List.nodup_cons.mp hnd
    have hrec := ih hnd2.2
    cases k with
    | none =>
      rw [List.filter_cons_of_neg (by simp)]
      rw [if_pos (List.mem_cons_self _ _)]
      rw [if_neg hnd2.1] at hrec
      simp only [List.length_cons]
      omega
    | some v =>
      rw [List.filter_cons_of_pos (by rfl)]
      by_cases hmm : (none : Option Bytes) ∈ rest
      · rw [if_pos (List.mem_cons_of_mem _ hmm)]
        rw [if_pos hmm] at hrec
        simp only [List.length_cons]
        omega
      · rw [if_neg (by simp [hmm])]
        rw [if_neg hmm] at hrec
        simp only [List.length_cons]
        omega

theorem sum_take_succ (ls : List Nat) (i : Nat) (hi : i < ls.length) :
    (ls.take (i + 1)).sum = (ls.take i).sum + ls.getD i 0 := by
  have hsplit : ls.take (i + 1) = ls.take i ++ (ls.drop i).take 1 := by
    rw [← List.take_append_drop i (ls.take (i + 1))]
    congr 1
    · rw [List.take_take]
      congr 1
      omega
    · rw [List.drop_take]
      congr 1
      omega
  have hdropne : ls.drop i = ls.getD i 0 :: ls.drop (i + 1) := by
    rw [List.getD_eq_getElem?_getD]
    rw [List.drop_eq_getElem_cons hi]
    congr 1
    rw [List.getElem?_eq_some.mpr ⟨hi, rfl⟩]
    rfl
  rw [hsplit, List.sum_append, hdropne]
  rfl

theorem lens_at_none :
    ∀ (abs : AbsState V) (i : Nat), (absKeys abs)[i]? = some none →
      (lensOf abs).getD i 0 = 0 := by
  intro abs
  induction abs with
  | nil => intro i hk; simp [absKeys] at hk
  | cons e rest ih =>
    intro i hk
    match i with
    | 0 =>
      have he : e.1 = none := by
        simp [absKeys] at hk
        exact hk
      show (lensOf (e :: rest)).getD 0 0 = 0
      simp [lensOf, he, bodyOf]
    | i + 1 =>
      have hk2 : (absKeys rest)[i]? = some none := by
        simpa [absKeys] using hk
      show (lensOf (e :: rest)).getD (i + 1) 0 = 0
      simpa [lensOf] using ih i hk2

theorem represents_offsetsInv (h : Option Bytes → Nat) {abs : AbsState V} {m : ArrowBytesMap V}
    (hrep : Represents h abs m) : OffsetsInv m := by
  obtain ⟨hnd, hmap, hbuf, hoff, hnull⟩ := hrep
  have hlensum : m.buffer.length = (lensOf abs).sum := by rw [hbuf, absBuffer_length]
  have hofflen : m.offsets.length = (lensOf abs).length + 1 := by
    rw [hoff, partialSums_length]
  refine ⟨?_, ?_, ?_, ?_, ?_, ?_, ?_⟩
  · intro hc
    have := congrArg List.length hc
    rw [hofflen] at this
    simp at this
  · rw [hoff, partialSums_getD (lensOf abs) 0 (by omega)]
    rfl
  · rw [hoff]
    exact partialSums_pairwise (lensOf abs)
  · rw [hoff, List.getLast?_eq_getElem?, partialSums_length]
    have hupper : (lensOf abs).length + 1 - 1 = (lensOf abs).length := by omega
    rw [hupper, partialSums_getElem? (lensOf abs) (lensOf abs).length (by omega)]
    rw [List.take_length, hlensum]
  · rw [hofflen, lensOf_length, hmap, entriesAux_length]
    have hsplit := keys_length_split (absKeys abs) hnd
    rw [absKeys_length] at hsplit
    have hnulliff : m.null.isSome = true ↔ none ∈ absKeys abs := by
      rw [hnull]
      cases hn : absNull abs with
      | none =>
        simp only [Option.isSome_none]
        constructor
        · intro hc; cases hc
        · intro hc
          exact absurd hn ((fun hx => by
            rw [absNull_none_iff] at hx
            exact absurd hc hx) : absNull abs = none → False)
      | some pq =>
        simp only [Option.isSome_some, true_iff]
        by_contra hc
        rw [← absNull_none_iff] at hc
        rw [hn] at hc
        cases hc
    by_cases hns : m.null.isSome = true
    · rw [if_pos hns]
      rw [if_pos (hnulliff.mp hns)] at hsplit
      omega
    · rw [if_neg hns]
      have : none ∉ absKeys abs := fun hc => hns (hnulliff.mpr hc)
      rw [if_neg this] at hsplit
      omega
  · intro i hi
    rw [hofflen] at hi
    rw [hoff, partialSums_getD (lensOf abs) (i + 1) (by omega), hlensum]
    have := sum_take_le (lensOf abs) (i + 1) (lensOf abs).length (by omega)
    rw [List.take_length] at this
    exact this
  · intro p idx hn
    have hnabs : absNull abs = some (p, idx) := by rw [← hnull]; exact hn
    obtain ⟨hlt, hat⟩ := absNull_getElem? abs p idx hnabs
    have hltl : idx < (lensOf abs).length := by rw [lensOf_length]; exact hlt
    constructor
    · rw [hofflen]; omega
    · rw [hoff, partialSums_getD (lensOf abs) idx (by omega),
        partialSums_getD (lensOf abs) (idx + 1) (by omega)]
      rw [sum_take_succ (lensOf abs) idx hltl, lens_at_none abs idx hat]
      omega

/-! ## Claim theorems -/

/-- **C6** — The offsets sequence is an invariant preserved by every
operation (construction, `insert_if_new`, `insert_or_update`, `take`):
non-decreasing, starts at `0`, final element equals the buffer's length,
its length is the number of distinct values recorded (null slot included)
plus one, every span ends inside the buffer, and the null slot's span is
zero-length. -/
theorem claim_C6 :
    (∀ ot : OutputType, OffsetsInv (ArrowBytesMap.new V ot))
    ∧ (∀ (h : Option Bytes → Nat) (esz : Nat) (m : ArrowBytesMap V),
        Reachable h esz m → OffsetsInv m)
    ∧ (∀ (h : Option Bytes → Nat) (esz : Nat) (ow : OffsetWidth) (make : Option Bytes → V)
        (m : ArrowBytesMap V) (arr : BatchArray)
        (r : ArrowBytesMap V × List (Option Bytes) × List V),
        Reachable h esz m → insertIfNew h esz ow make m arr = .ok r → OffsetsInv r.1)
    ∧ (∀ (h : Option Bytes → Nat) (esz : Nat) (ow : OffsetWidth) (make : Option Bytes → V)
        (update : V → V) (m : ArrowBytesMap V) (arr : BatchArray)
        (r : ArrowBytesMap V × List (Option Bytes) × List V),
        Reachable h esz m → insertOrUpdate h esz ow make update m arr = .ok r → OffsetsInv r.1)
    ∧ (∀ (h : Option Bytes → Nat) (esz : Nat) (m : ArrowBytesMap V), Reachable h esz m →
        OffsetsInv (ArrowBytesMap.take m).1 ∧ OffsetsInv (ArrowBytesMap.take m).2) := by
  have hreach : ∀ (h : Option Bytes → Nat) (esz : Nat) (m : ArrowBytesMap V),
      Reachable h esz m → OffsetsInv m := by
    intro h esz m hr
    obtain ⟨abs, hrep⟩ := reachable_represents h esz hr
    exact represents_offsetsInv h hrep
  refine ⟨?_, hreach, ?_, ?_, ?_⟩
  · intro ot
    exact hreach (fun _ => 0) 0 _ (Reachable.new ot)
  · intro h esz ow make m arr r hr hok
    exact hreach h esz r.1 (reachable_insertIfNew h esz ow make hr hok)
  · intro h esz ow make update m arr r hr hok
    exact hreach h esz r.1 (reachable_insertOrUpdate h esz ow make update hr hok)
  · intro h esz m hr
    exact ⟨hreach h esz m hr, hreach h esz _ (Reachable.new m.output_type)⟩

theorem entriesAux_bounds (h : Option Bytes → Nat) :
    ∀ (abs : AbsState V) (off : Nat) (e : Entry V), e ∈ entriesAux h off abs →
      SHORT_VALUE_LEN < e.len → e.offset_or_inline + e.len ≤ off + (absBuffer abs).length := by
  intro abs
  induction abs with
  | nil => intro off e he; cases he
  | cons hd rest ih =>
    intro off e he hlong
    match hd with
    | (none, q) =>
      have hrec := ih off e he hlong
      rw [absBuffer_cons]
      simpa [bodyOf] using hrec
    | (some w, p) =>
      rw [absBuffer_cons]
      show e.offset_or_inline + e.len ≤ off + (w ++ absBuffer rest).length
      rcases List.mem_cons.mp he with hhd | htl
      · subst hhd
        show (if w.length ≤ SHORT_VALUE_LEN then inlineOf w else off) + w.length ≤ _
        have hlong2 : SHORT_VALUE_LEN < w.length := hlong
        rw [if_neg (by omega)]
        rw [List.length_append]
        omega
      · have hrec := ih (off + w.length) e htl hlong
        rw [List.length_append]
        omega

/-- **C7** — For every entry stored in the hash table with length greater
than the inline threshold, at every reachable point (including mid-batch,
since `Reachable` is closed under the per-value steps) the arena range
`offset_or_inline .. offset_or_inline + len` lies within the buffer, so
the unchecked arena reads of the equality closure never go out of
bounds. -/
theorem claim_C7 (h : Option Bytes → Nat) (esz : Nat) (m : ArrowBytesMap V)
    (hr : Reachable h esz m) :
    ∀ e ∈ m.map, SHORT_VALUE_LEN < e.len → e.rangeEnd ≤ m.buffer.length := by
  obtain ⟨abs, hrep⟩ := reachable_represents h esz hr
  obtain ⟨hnd, hmap, hbuf, hoff, hnull⟩ := hrep
  intro e he hlong
  rw [hmap] at he
  have := entriesAux_bounds h abs 0 e he hlong
  rw [hbuf]
  unfold Entry.rangeEnd
  omega

/-- **C9** — `take` hands back exactly the prior contents and leaves in
place a map equal to a freshly constructed one of the same output type
(empty hash table, single zero offset, empty buffer, no null marker, zero
accounted size, empty hash scratch buffer). -/
theorem claim_C9 (m : ArrowBytesMap V) :
    (ArrowBytesMap.take m).1 = m
    ∧ (ArrowBytesMap.take m).2 = ArrowBytesMap.new V m.output_type
    ∧ (ArrowBytesMap.take m).2.output_type = m.output_type
    ∧ (ArrowBytesMap.take m).2.map = []
    ∧ (ArrowBytesMap.take m).2.map_size = 0
    ∧ (ArrowBytesMap.take m).2.buffer = []
    ∧ (ArrowBytesMap.take m).2.offsets = [0]
    ∧ (ArrowBytesMap.take m).2.hashes_buffer = []
    ∧ (ArrowBytesMap.take m).2.null = none :=
  ⟨rfl, rfl, rfl, rfl, rfl, rfl, rfl, rfl, rfl⟩

/-- **C1** — For every sequence of batches inserted via `insert_if_new`
from a fresh map, the materialized output is exactly the distinct keys in
first-occurrence order (hence contains each distinct key exactly once and
nothing else), and `len()` equals the number of distinct non-null keys
plus one if any null was inserted. -/
theorem claim_C1 (h : Option Bytes → Nat) (esz : Nat) (ow : OffsetWidth) (ot : OutputType)
    (bs : List ((Option Bytes → V) × BatchArray)) (m' : ArrowBytesMap V)
    (hok : runIfNewBatches h esz ow (ArrowBytesMap.new V ot) bs = .ok m') :
    (ArrowBytesMap.into_state m').logicalValues
        = distinctsOf ((bs.map fun b => b.2.values).flatten)
    ∧ (∀ k, k ∈ (bs.map fun b => b.2.values).flatten →
        countKey (ArrowBytesMap.into_state m').logicalValues k = 1)
    ∧ (∀ k, k ∉ (bs.map fun b => b.2.values).flatten →
        countKey (ArrowBytesMap.into_state m').logicalValues k = 0)
    ∧ m'.len
        = ((distinctsOf ((bs.map fun b => b.2.values).flatten)).filter fun k => k.isSome).length
          + (if none ∈ (bs.map fun b => b.2.values).flatten then 1 else 0) := by
  have hrep : Represents h (absRunOps [] (bs.map fun b => MOp.ifNew b.1 b.2)) m' :=
    runOps_ok_refines h esz ow _ (represents_new h ot) hok
  have hkeys : absKeys (absRunOps ([] : AbsState V) (bs.map fun b => MOp.ifNew b.1 b.2))
      = distinctsOf ((bs.map fun b => b.2.values).flatten) := by
    rw [absKeys_absRunOps]
    unfold distinctsOf
    congr 1
    rw [List.map_map]
    rfl
  have hlog := logicalValues_into_state h hrep
  rw [hkeys] at hlog
  obtain ⟨hnd, hmap, hbuf, hoff, hnull⟩ := hrep
  refine ⟨hlog, ?_, ?_, ?_⟩
  · intro k hk
    rw [hlog]
    exact distinctsOf_count _ k hk
  · intro k hk
    rw [hlog]
    apply countKey_eq_zero
    rw [distinctsOf_mem]
    exact hk
  · show m'.map.length + (if m'.null.isSome then 1 else 0) = _
    rw [hmap, entriesAux_length, hkeys]
    congr 1
    have hnulliff : m'.null.isSome = true ↔
        none ∈ (bs.map fun b => b.2.values).flatten := by
      rw [hnull]
      have hmemk : none ∈ absKeys (absRunOps ([] : AbsState V) (bs.map fun b => MOp.ifNew b.1 b.2))
          ↔ none ∈ (bs.map fun b => b.2.values).flatten := by
        rw [hkeys, distinctsOf_mem]
      rw [← hmemk]
      cases hn : absNull (absRunOps ([] : AbsState V) (bs.map fun b => MOp.ifNew b.1 b.2)) with
      | none =>
        rw [absNull_none_iff] at hn
        simp [hn]
      | some pq =>
        have : none ∈ absKeys (absRunOps ([] : AbsState V) (bs.map fun b => MOp.ifNew b.1 b.2)) := by
          by_contra hc
          rw [← absNull_none_iff] at hc
          rw [hn] at hc
          cases hc
        simp [this]
    by_cases hns : m'.null.isSome = true
    · rw [if_pos hns, if_pos (hnulliff.mp hns)]
    · rw [if_neg hns, if_neg (fun hc => hns (hnulliff.mpr hc))]

/-- **C2** — For every mixed sequence of `insert_if_new` /
`insert_or_update` batches from a fresh map, `into_state` returns the
distinct values in first-insertion order across all batches; a null
indicator exists exactly when a null was inserted, and it marks exactly
the null's first-seen logical index as invalid. -/
theorem claim_C2 (h : Option Bytes → Nat) (esz : Nat) (ow : OffsetWidth) (ot : OutputType)
    (ops : List (MOp V)) (m' : ArrowBytesMap V)
    (hok : runOps h esz ow (ArrowBytesMap.new V ot) ops = .ok m') :
    (ArrowBytesMap.into_state m').logicalValues = distinctsOf ((ops.map MOp.values).flatten)
    ∧ ((ArrowBytesMap.into_state m').nulls.isSome
        ↔ none ∈ (ops.map MOp.values).flatten)
    ∧ (∀ bl, (ArrowBytesMap.into_state m').nulls = some bl →
        bl.length = (distinctsOf ((ops.map MOp.values).flatten)).length
        ∧ ∀ i, i < (distinctsOf ((ops.map MOp.values).flatten)).length →
            (bl.getD i true = false
              ↔ (distinctsOf ((ops.map MOp.values).flatten))[i]? = some none)) := by
  have hrep : Represents h (absRunOps [] ops) m' :=
    runOps_ok_refines h esz ow ops (represents_new h ot) hok
  have hkeys : absKeys (absRunOps ([] : AbsState V) ops)
      = distinctsOf ((ops.map MOp.values).flatten) := by
    rw [absKeys_absRunOps]
    rfl
  have hlog := logicalValues_into_state h hrep
  rw [hkeys] at hlog
  obtain ⟨hnd, hmap, hbuf, hoff, hnull⟩ := hrep
  have hlen : (distinctsOf ((ops.map MOp.values).flatten)).length
      = (absRunOps ([] : AbsState V) ops).length := by
    rw [← hkeys, absKeys_length]
  refine ⟨hlog, ?_, ?_⟩
  · show (m'.null.map fun pn => singleNullBuffer (m'.offsets.length - 1) pn.2).isSome ↔ _
    rw [hnull]
    cases hn : absNull (absRunOps ([] : AbsState V) ops) with
    | none =>
      rw [absNull_none_iff] at hn
      rw [hkeys, distinctsOf_mem] at hn
      simp [hn]
    | some pq =>
      have hmem : none ∈ absKeys (absRunOps ([] : AbsState V) ops) := by
        by_contra hc
        rw [← absNull_none_iff] at hc
        rw [hn] at hc
        cases hc
      rw [hkeys, distinctsOf_mem] at hmem
      simp [hmem]
  · intro bl hbl
    show bl.length = _ ∧ _
    have hblval : ∃ p idx, m'.null = some (p, idx)
        ∧ bl = singleNullBuffer (m'.offsets.length - 1) idx := by
      show ∃ p idx, _
      cases hn : m'.null with
      | none =>
        rw [show (ArrowBytesMap.into_state m').nulls
            = m'.null.map fun pn => singleNullBuffer (m'.offsets.length - 1) pn.2 from rfl, hn]
          at hbl
        cases hbl
      | some pidx =>
        rw [show (ArrowBytesMap.into_state m').nulls
            = m'.null.map fun pn => singleNullBuffer (m'.offsets.length - 1) pn.2 from rfl, hn]
          at hbl
        simp only [Option.map_some'] at hbl
        exact ⟨pidx.1, pidx.2, rfl, (Option.some.inj hbl).symm⟩
    obtain ⟨p, idx, hn, hblv⟩ := hblval
    have hnabs : absNull (absRunOps ([] : AbsState V) ops) = some (p, idx) := by
      rw [← hnull]; exact hn
    obtain ⟨hlt, hat⟩ := absNull_getElem? _ p idx hnabs
    have hofflen : m'.offsets.length - 1 = (absRunOps ([] : AbsState V) ops).length := by
      rw [hoff, partialSums_length, lensOf_length]
      omega
    constructor
    · rw [hblv, hofflen, hlen]
      unfold singleNullBuffer
      rw [List.length_set, List.length_replicate]
    · intro i hi
      rw [hlen] at hi
      rw [hblv, hofflen]
      rw [singleNullBuffer_getD _ idx i hi]
      rw [← hkeys]
      by_cases hii : i = idx
      · subst hii
        rw [if_pos rfl]
        simp only [true_iff]
        exact hat
      · rw [if_neg hii]
        constructor
        · intro hc; cases hc
        · intro hc
          have heq : i = idx := by
            apply List.getElem?_inj _ hnd
            · rw [hc, hat]
            · rw [absKeys_length]; exact hi
          exact absurd heq hii

/-! ## Concrete fixtures for the executable scenarios -/

/-- **C3** — Inserting `["A","B","B","C","C"]` via `insert_or_update` with
a counter payload from a fresh map stores payloads `A:1, B:2, C:2`, and a
subsequent `get_payloads(["A","B","C","D"])` returns
`[Some 1, Some 2, Some 2, None]`; in general, lookup returns `None` at
every position whose key (null or not) was never inserted, and the lookup
function is pure — it takes the map and returns payloads only. -/
theorem claim_C3 :
    ((insertOrUpdate h0 0 .w32 (fun _ => (1 : Nat)) (fun p => p + 1)
        (ArrowBytesMap.new Nat .Utf8) c3batch).toOption.map
      fun r => (r.1.map.map Entry.payload, getPayloads h0 .w32 r.1 c3query))
      = some ([1, 2, 2], .ok [some 1, some 2, some 2, none])
    ∧ (∀ (h : Option Bytes → Nat) (abs : AbsState V) (m : ArrowBytesMap V),
        Represents h abs m →
        ∀ (vs : List (Option Bytes)) (i : Nat) (v : Option Bytes),
          vs[i]? = some v → v ∉ absKeys abs →
          (getPayloadsInner h m vs)[i]? = some none) := by
  constructor
  · rfl
  · intro h abs m hrep vs i v hvi hmem
    unfold getPayloadsInner
    rw [List.getElem?_map, hvi]
    simp only [Option.map_some']
    cases v with
    | none =>
      have hn : m.null = none := by
        rw [hrep.2.2.2.2]
        rw [absNull_none_iff]
        exact hmem
      show some (m.null.map Prod.fst) = some none
      rw [hn]
      rfl
    | some value =>
      have hget : mapGet h m value = entryFor h 0 abs value := mapGet_eq_entryFor h hrep value
      have hnone : entryFor h 0 abs value = none := (entryFor_eq_none_iff h value abs 0).mpr hmem
      show some ((mapGet h m value).map Entry.payload) = some none
      rw [hget, hnone]
      rfl

theorem claim_C3_witness :
    (getPayloadsInner h0 (ArrowBytesMap.new Nat .Utf8) [some cbD])[0]? = some none :=
  (@claim_C3 Nat).2 h0 [] (ArrowBytesMap.new Nat .Utf8) ⟨by decide, rfl, rfl, rfl, rfl⟩
    [some cbD] 0 (some cbD) (by decide) (by decide)

/-- **C4** — Short keys (length at most 8, including exactly 8) are
packed losslessly big-endian into the location word via the shift-or fold;
comparing packed words decides equality of equal-length short keys; the
equality closure always fails first on unequal lengths, never consults
the arena for short probes, and compares exact arena bytes for long
entries; and the 8-byte / 9-byte boundary pair with bit-identical packed
words round-trips as two distinct values. -/
theorem claim_C4 :
    (∀ v : Bytes, v.length ≤ SHORT_VALUE_LEN → inlineOf v = beVal v)
    ∧ (∀ v w : Bytes, v.length = w.length → v.length ≤ SHORT_VALUE_LEN →
        (inlineOf v = inlineOf w ↔ v = w))
    ∧ (∀ (buf : Bytes) (v : Bytes) (e : Entry V),
        e.len ≠ v.length → entryMatches buf v e = false)
    ∧ (∀ (buf buf' : Bytes) (v : Bytes) (e : Entry V), v.length ≤ SHORT_VALUE_LEN →
        entryMatches buf v e = entryMatches buf' v e)
    ∧ (∀ (buf : Bytes) (v : Bytes) (e : Entry V), SHORT_VALUE_LEN < e.len →
        (entryMatches buf v e = true ↔
          e.len = v.length ∧ v = sliceAt buf e.offset_or_inline e.len))
    ∧ inlineOf c4k8 = inlineOf c4k9
    ∧ ((insertIfNew h0 0 .w32 (fun _ => (0 : Nat)) (ArrowBytesMap.new Nat .Utf8) c4batch).toOption.map
        fun r => (r.1.len, (ArrowBytesMap.into_state r.1).logicalValues,
          r.1.map.map Entry.offset_or_inline))
      = some (2, [some c4k8, some c4k9], [inlineOf c4k8, 8]) := by
  refine ⟨inlineOf_eq_beVal, ?_, ?_, ?_, ?_, rfl, rfl⟩
  · intro v w hlen hs
    constructor
    · exact inlineOf_inj v w hlen hs
    · intro hvw
      rw [hvw]
  · intro buf v e hne
    unfold entryMatches
    rw [if_pos hne]
  · intro buf buf' v e hs
    unfold entryMatches
    by_cases hne : e.len ≠ v.length
    · rw [if_pos hne, if_pos hne]
    · rw [if_neg hne, if_neg hne, if_pos hs, if_pos hs]
  · intro buf v e hlong
    unfold entryMatches
    by_cases hne : e.len ≠ v.length
    · rw [if_pos hne]
      constructor
      · intro hc; cases hc
      · intro hc
        exact absurd hc.1 hne
    · rw [if_neg hne]
      push_neg at hne
      have hvs : ¬ v.length ≤ SHORT_VALUE_LEN := by omega
      rw [if_neg hvs]
      constructor
      · intro hc
        simp only [beq_iff_eq] at hc
        exact ⟨hne, hc⟩
      · intro hc
        simp only [beq_iff_eq]
        exact hc.2

theorem claim_C4_witness :
    inlineOf c4k8 = beVal c4k8
    ∧ (inlineOf cbA = inlineOf cbB ↔ cbA = cbB)
    ∧ entryMatches [] c4k8 ({ hash := 0, offset_or_inline := 0, len := 9, payload := 0 } : Entry Nat)
        = false
    ∧ entryMatches [] cbA ({ hash := 0, offset_or_inline := 65, len := 1, payload := 0 } : Entry Nat)
        = entryMatches [(200 : Fin 256)] cbA
            ({ hash := 0, offset_or_inline := 65, len := 1, payload := 0 } : Entry Nat)
    ∧ (entryMatches (c4k9 ++ []) c4k9
          ({ hash := 0, offset_or_inline := 0, len := 9, payload := 0 } : Entry Nat) = true
        ↔ (9 : Nat) = c4k9.length ∧ c4k9 = sliceAt (c4k9 ++ []) 0 9) :=
  ⟨(@claim_C4 Nat).1 c4k8 (by decide),
   (@claim_C4 Nat).2.1 cbA cbB (by decide) (by decide),
   (@claim_C4 Nat).2.2.1 [] c4k8 _ (by decide),
   (@claim_C4 Nat).2.2.2.1 [] [(200 : Fin 256)] cbA _ (by decide),
   (@claim_C4 Nat).2.2.2.2.1 (c4k9 ++ []) c4k9 _ (by decide)⟩

/-- **C5, counterexample** — The claim's two panic conditions are not
exhaustive: a `LargeUtf8` array fed to a map configured `Utf8` with 32-bit
offsets passes the kind assertion (kind agrees) and causes no overflow
(the batch is empty), yet the operation still panics — the `as_bytes`
downcast to `GenericStringType<i32>` fails on the large-offset array. -/
theorem claim_C5_counterexample :
    (insertIfNew h0 0 .w32 (fun _ => (0 : Nat)) (ArrowBytesMap.new Nat .Utf8)
        { data_type := .LargeUtf8, values := [] }).isOk = false
    ∧ kindOk (ArrowBytesMap.new Nat .Utf8).output_type DataType.LargeUtf8 = true
    ∧ (insertLoopIfNew h0 0 (fun _ => (0 : Nat))
        { ArrowBytesMap.new Nat .Utf8 with hashes_buffer := [] }
        []).1.buffer.length ≤ OffsetWidth.maxRepr .w32 := by
  refine ⟨rfl, rfl, ?_⟩
  show (0 : Nat) ≤ 2 ^ 31 - 1
  omega

/-- **C5, amended** — Both insert protocols fail fatally exactly when
(a) the array's declared kind (Utf8 vs Binary) disagrees with the map's
output type, (a') the kind agrees but the array's offset width (standard
vs large) disagrees with the map's configured offset width, or (b) the
cumulative buffer size after the batch exceeds what the offset width can
represent; on success the resulting buffer length is always
representable, so no silently-truncated offsets are ever returned. -/
theorem claim_C5 (h : Option Bytes → Nat) (esz : Nat) (ow : OffsetWidth)
    (make : Option Bytes → V) (update : V → V) (m : ArrowBytesMap V) (arr : BatchArray) :
    ((insertIfNew h esz ow make m arr).isOk = true ↔
      (kindOk m.output_type arr.data_type = true
        ∧ arr.data_type = exactDataType m.output_type ow
        ∧ (insertLoopIfNew h esz make { m with hashes_buffer := arr.values.map h }
            arr.values).1.buffer.length ≤ ow.maxRepr))
    ∧ ((insertOrUpdate h esz ow make update m arr).isOk = true ↔
      (kindOk m.output_type arr.data_type = true
        ∧ arr.data_type = exactDataType m.output_type ow
        ∧ (insertLoopOrUpdate h esz make update { m with hashes_buffer := arr.values.map h }
            arr.values).1.buffer.length ≤ ow.maxRepr))
    ∧ (∀ r, insertIfNew h esz ow make m arr = .ok r →
        r = insertLoopIfNew h esz make { m with hashes_buffer := arr.values.map h } arr.values
          ∧ r.1.buffer.length ≤ ow.maxRepr)
    ∧ (∀ r, insertOrUpdate h esz ow make update m arr = .ok r →
        r = insertLoopOrUpdate h esz make update { m with hashes_buffer := arr.values.map h }
            arr.values
          ∧ r.1.buffer.length ≤ ow.maxRepr) := by
  refine ⟨?_, ?_, ?_, ?_⟩
  · unfold insertIfNew
    by_cases h1 : kindOk m.output_type arr.data_type = true
    · rw [if_neg (by simp [h1])]
      by_cases h2 : arr.data_type = exactDataType m.output_type ow
      · rw [if_neg (by simp [h2])]
        by_cases h3 : ow.maxRepr <
            (insertLoopIfNew h esz make { m with hashes_buffer := arr.values.map h }
              arr.values).1.buffer.length
        · rw [if_pos h3]
          constructor
          · intro hc; cases hc
          · intro hc
            omega
        · rw [if_neg h3]
          constructor
          · intro _
            exact ⟨h1, h2, by omega⟩
          · intro _
            rfl
      · rw [if_pos h2]
        constructor
        · intro hc; cases hc
        · intro hc
          exact absurd hc.2.1 h2
    · rw [if_pos (by simp [h1])]
      constructor
      · intro hc; cases hc
      · intro hc
        exact absurd hc.1 h1
  · unfold insertOrUpdate
    by_cases h1 : kindOk m.output_type arr.data_type = true
    · rw [if_neg (by simp [h1])]
      by_cases h2 : arr.data_type = exactDataType m.output_type ow
      · rw [if_neg (by simp [h2])]
        by_cases h3 : ow.maxRepr <
            (insertLoopOrUpdate h esz make update { m with hashes_buffer := arr.values.map h }
              arr.values).1.buffer.length
        · rw [if_pos h3]
          constructor
          · intro hc; cases hc
          · intro hc
            omega
        · rw [if_neg h3]
          constructor
          · intro _
            exact ⟨h1, h2, by omega⟩
          · intro _
            rfl
      · rw [if_pos h2]
        constructor
        · intro hc; cases hc
        · intro hc
          exact absurd hc.2.1 h2
    · rw [if_pos (by simp [h1])]
      constructor
      · intro hc; cases hc
      · intro hc
        exact absurd hc.1 h1
  · intro r hok
    unfold insertIfNew at hok
    split at hok
    · exact Except.noConfusion hok
    · split at hok
      · exact Except.noConfusion hok
      · split at hok
        · exact Except.noConfusion hok
        · next h3 =>
          cases hok
          exact ⟨rfl, by omega⟩
  · intro r hok
    unfold insertOrUpdate at hok
    split at hok
    · exact Except.noConfusion hok
    · split at hok
      · exact Except.noConfusion hok
      · split at hok
        · exact Except.noConfusion hok
        · next h3 =>
          cases hok
          exact ⟨rfl, by omega⟩

theorem insertLoopIfNew_obs_length (h : Option Bytes → Nat) (esz : Nat)
    (make : Option Bytes → V) :
    ∀ (vs : List (Option Bytes)) (m : ArrowBytesMap V),
      (insertLoopIfNew h esz make m vs).2.2.length = vs.length := by
  intro vs
  induction vs with
  | nil => intro m; rfl
  | cons v vs ih =>
    intro m
    unfold insertLoopIfNew
    simp only [List.length_cons]
    rw [ih]

/-- **C8** — `insert_if_new` never mutates a stored payload: on a hit
(whether on a non-null key or on a repeated null) the state is returned
entirely unchanged and `observe_payload_fn` receives exactly the stored
payload, while `make_payload_fn` is not invoked; and across a whole batch
`observe_payload_fn` is invoked exactly once per value, in batch order
(the observation trace has one entry per batch element). -/
theorem claim_C8 :
    (∀ (h : Option Bytes → Nat) (esz : Nat) (make : Option Bytes → V)
        (abs : AbsState V) (m : ArrowBytesMap V) (v : Option Bytes) (p : V),
        Represents h abs m → absFind abs v = some p →
        stepIfNew h esz make m v = (m, none, p))
    ∧ (∀ (h : Option Bytes → Nat) (esz : Nat) (ow : OffsetWidth) (make : Option Bytes → V)
        (m : ArrowBytesMap V) (arr : BatchArray)
        (r : ArrowBytesMap V × List (Option Bytes) × List V),
        insertIfNew h esz ow make m arr = .ok r → r.2.2.length = arr.values.length) := by
  constructor
  · intro h esz make abs m v p hrep hfind
    have hmem : v ∈ absKeys abs := by
      by_contra hc
      rw [← absFind_eq_none_iff abs v] at hc
      rw [hfind] at hc
      cases hc
    have href := stepIfNew_refines h esz make hrep v
    have hhit := href.2.2.2 hmem
    have hmade : (stepIfNew h esz make m v).2.1 = none := by
      rw [href.2.1, if_pos hmem]
    have hobs : (stepIfNew h esz make m v).2.2 = p := by
      have := hhit.2
      rw [hfind] at this
      exact (Option.some.inj this).symm
    have hsplit : stepIfNew h esz make m v
        = ((stepIfNew h esz make m v).1,
           (stepIfNew h esz make m v).2.1, (stepIfNew h esz make m v).2.2) := rfl
    rw [hsplit, hhit.1, hmade, hobs]
  · intro h esz ow make m arr r hok
    unfold insertIfNew at hok
    split at hok
    · exact Except.noConfusion hok
    · split at hok
      · exact Except.noConfusion hok
      · split at hok
        · exact Except.noConfusion hok
        · cases hok
          exact insertLoopIfNew_obs_length h esz make arr.values _

theorem claim_C8_witness :
    stepIfNew h0 0 (fun _ => (7 : Nat)) c8m (some cbA) = (c8m, none, 5)
    ∧ ((insertLoopIfNew h0 0 (fun _ => (7 : Nat))
        { c8m with hashes_buffer := [0, 0] } [some cbA, none]).2.2).length = 2 := by
  constructor
  · exact claim_C8.1 h0 0 (fun _ => (7 : Nat)) [(some cbA, 5)] c8m (some cbA) 5
      ⟨by decide, by decide, rfl, by decide, rfl⟩ (by decide)
  · exact claim_C8.2 h0 0 .w32 (fun _ => (7 : Nat)) c8m
      { data_type := .Utf8, values := [some cbA, none] } _ (by rfl)

/-- **C10** — In `insert_or_update`, the first null occurrence in the
map's lifetime invokes only `make_payload_fn(None)` and stores its result
as the null payload (`update_payload_fn` is not invoked: its trace slot is
empty); later null occurrences invoke only `update_payload_fn`, on the
stored payload.  This is asymmetric with `insert_if_new`, whose first null
occurrence additionally invokes `observe_payload_fn` with the just-created
payload. -/
theorem claim_C10 :
    (∀ (h : Option Bytes → Nat) (esz : Nat) (make : Option Bytes → V) (update : V → V)
        (m : ArrowBytesMap V), m.null = none →
        stepOrUpdate h esz make update m none
          = ({ m with offsets := m.offsets ++ [m.buffer.length],
                      null := some (make none, m.offsets.length - 1) },
             some none, none))
    ∧ (∀ (h : Option Bytes → Nat) (esz : Nat) (make : Option Bytes → V) (update : V → V)
        (m : ArrowBytesMap V) (p : V) (i : Nat), m.null = some (p, i) →
        stepOrUpdate h esz make update m none
          = ({ m with null := some (update p, i) }, none, some p))
    ∧ (∀ (h : Option Bytes → Nat) (esz : Nat) (make : Option Bytes → V)
        (m : ArrowBytesMap V), m.null = none →
        stepIfNew h esz make m none
          = ({ m with offsets := m.offsets ++ [m.buffer.length],
                      null := some (make none, m.offsets.length - 1) },
             some none, make none)) := by
  refine ⟨?_, ?_, ?_⟩
  · intro h esz make update m hn
    simp only [stepOrUpdate]
    rw [hn]
  · intro h esz make update m p i hn
    simp only [stepOrUpdate]
    rw [hn]
  · intro h esz make m hn
    simp only [stepIfNew]
    rw [hn]

theorem claim_C10_witness :
    stepOrUpdate h0 0 (fun _ => (1 : Nat)) (fun p => p + 10) (ArrowBytesMap.new Nat .Utf8) none
        = ({ ArrowBytesMap.new Nat .Utf8 with offsets := [0, 0], null := some (1, 0) },
           some none, none)
    ∧ stepOrUpdate h0 0 (fun _ => (1 : Nat)) (fun p => p + 10) c10m none
        = ({ c10m with null := some (13, 0) }, none, some 3)
    ∧ stepIfNew h0 0 (fun _ => (1 : Nat)) (ArrowBytesMap.new Nat .Utf8) none
        = ({ ArrowBytesMap.new Nat .Utf8 with offsets := [0, 0], null := some (1, 0) },
           some none, 1) := by
  refine ⟨?_, ?_, ?_⟩
  · have hC := claim_C10.1 h0 0 (fun _ => (1 : Nat)) (fun p => p + 10)
      (ArrowBytesMap.new Nat .Utf8) rfl
    rw [hC]
    rfl
  · have hC := claim_C10.2.1 h0 0 (fun _ => (1 : Nat)) (fun p => p + 10) c10m 3 0 rfl
    rw [hC]
  · have hC := claim_C10.2.2 h0 0 (fun _ => (1 : Nat)) (ArrowBytesMap.new Nat .Utf8) rfl
    rw [hC]
    rfl

theorem claim_C1_witness :
    (ArrowBytesMap.into_state c1m).logicalValues
        = distinctsOf ((c1bs.map fun b => b.2.values).flatten)
    ∧ countKey (ArrowBytesMap.into_state c1m).logicalValues (some cbA) = 1
    ∧ c1m.len
        = ((distinctsOf ((c1bs.map fun b => b.2.values).flatten)).filter fun k => k.isSome).length
          + (if none ∈ (c1bs.map fun b => b.2.values).flatten then 1 else 0) := by
  have hC := claim_C1 h0 0 .w32 .Utf8 c1bs c1m (by rfl)
  exact ⟨hC.1, hC.2.1 (some cbA) (by decide), hC.2.2.2⟩

theorem claim_C2_witness :
    (ArrowBytesMap.into_state c2m).logicalValues = distinctsOf ((c2ops.map MOp.values).flatten)
    ∧ ((ArrowBytesMap.into_state c2m).nulls.isSome ↔ none ∈ (c2ops.map MOp.values).flatten)
    ∧ (singleNullBuffer 3 1).length = (distinctsOf ((c2ops.map MOp.values).flatten)).length
    ∧ ((singleNullBuffer 3 1).getD 1 true = false
        ↔ (distinctsOf ((c2ops.map MOp.values).flatten))[1]? = some none) := by
  have hC := claim_C2 h0 0 .w32 .Utf8 c2ops c2m (by rfl)
  have hbl := hC.2.2 (singleNullBuffer 3 1) (by rfl)
  exact ⟨hC.1, hC.2.1, hbl.1, hbl.2 1 (by decide)⟩

theorem claim_C5_witness :
    (insertIfNew h0 0 .w32 (fun _ => (0 : Nat)) (ArrowBytesMap.new Nat .Utf8)
        { data_type := .Utf8, values := [some cbA] }).isOk = true
    ∧ (insertOrUpdate h0 0 .w32 (fun _ => (0 : Nat)) (fun p => p)
        (ArrowBytesMap.new Nat .Utf8)
        { data_type := .LargeUtf8, values := [] }).isOk = false := by
  have hC := claim_C5 h0 0 .w32 (fun _ => (0 : Nat)) (fun p => (p : Nat))
    (ArrowBytesMap.new Nat .Utf8) { data_type := .Utf8, values := [some cbA] }
  have hD := claim_C5 h0 0 .w32 (fun _ => (0 : Nat)) (fun p => (p : Nat))
    (ArrowBytesMap.new Nat .Utf8) { data_type := .LargeUtf8, values := [] }
  constructor
  · exact hC.1.mpr ⟨rfl, rfl, by show (1 : Nat) ≤ 2 ^ 31 - 1; omega⟩
  · cases hio : (insertOrUpdate h0 0 .w32 (fun _ => (0 : Nat)) (fun p => (p : Nat))
        (ArrowBytesMap.new Nat .Utf8)
        { data_type := .LargeUtf8, values := [] }).isOk
    · rfl
    · exact absurd (hD.2.1.mp hio).2.1 (by decide)

theorem claim_C6_witness :
    OffsetsInv (ArrowBytesMap.new Nat OutputType.Utf8)
    ∧ OffsetsInv ((stepIfNew h0 0 (fun _ => (0 : Nat))
        (ArrowBytesMap.new Nat OutputType.Utf8) (some cbA)).1)
    ∧ OffsetsInv ((ArrowBytesMap.take (ArrowBytesMap.new Nat OutputType.Utf8)).1) :=
  ⟨claim_C6.1 OutputType.Utf8,
   claim_C6.2.1 h0 0 _
     (Reachable.ifNewStep (fun _ => 0) (some cbA) (Reachable.new OutputType.Utf8)),
   (claim_C6.2.2.2.2 h0 0 _ (Reachable.new OutputType.Utf8)).1⟩

theorem claim_C7_witness :
    ({ hash := 0, offset_or_inline := 0, len := 9, payload := 0 } : Entry Nat).rangeEnd
      ≤ c7m.buffer.length :=
  claim_C7 h0 0 c7m
    (Reachable.ifNewStep (fun _ => 0) (some c4k9) (Reachable.new OutputType.Utf8))
    { hash := 0, offset_or_inline := 0, len := 9, payload := 0 } (by decide) (by decide)

end BinaryMap
